import Mathlib

/-!
Verification of the OpenAPI reference-aware deletion engine
(`OpenAPIEditor` in `src/types/OpenAPITypes.ts`).

The document model mirrors the TypeScript interfaces plus the extra runtime
fields the editor reads (`components.requestBodies`, `document.tags`,
path-level `parameters`).  JavaScript `Set`s are modelled as duplicate-free
`List String` with order-preserving insertion; JavaScript objects are
association lists `List (String × _)` whose lookup returns the first binding.

`collectSchemaRefs` recurses both structurally and through the component
pool; the embedding uses an explicit fuel argument that decreases on every
recursive call, so the function is structurally recursive (and hence
computable by the kernel).  A fuel-sufficiency bound and a stability theorem
show the fuel never runs out for the canonical fuel value, which is the
termination argument of claim C6.
-/

/- Schema nodes as traversed by the editor: an optional `$ref` string, an
optional array-items schema, object properties, `additionalProperties`
(which at runtime is absent, a boolean flag, or a schema object) and the
three list combinators `allOf`, `oneOf`, `anyOf`.  `SchemaList`/`PropList`
are inlined list types so that the family is a mutual (not nested)
inductive, keeping recursion structural. -/
mutual
inductive Schema where
  | mk (ref : Option String) (items : Option Schema) (properties : PropList)
       (additionalProperties : Option (Bool ⊕ Schema))
       (allOf oneOf anyOf : SchemaList)
inductive SchemaList where
  | nil
  | cons (s : Schema) (rest : SchemaList)
inductive PropList where
  | nil
  | cons (name : String) (s : Schema) (rest : PropList)
end

/- Size measures used only for fuel bounds. -/
mutual
def schemaSize : Schema → Nat
  | .mk _ items props addProps allOf oneOf anyOf =>
      1 + (match items with | some it => schemaSize it | none => 0)
        + propsSize props
        + (match addProps with | some (.inr s) => schemaSize s | _ => 0)
        + listSize allOf + listSize oneOf + listSize anyOf
def listSize : SchemaList → Nat
  | .nil => 1
  | .cons s rest => 1 + schemaSize s + listSize rest
def propsSize : PropList → Nat
  | .nil => 1
  | .cons _ s rest => 1 + schemaSize s + propsSize rest
end

/-- Split a character list at a separator, like JavaScript `String.split`. -/
def splitSegs (sep : Char) : List Char → List (List Char)
  | [] => [[]]
  | c :: rest =>
    let r := splitSegs sep rest
    if c = sep then [] :: r
    else match r with
      | [] => [[c]]
      | seg :: segs => (c :: seg) :: segs

/-- `extractRefName`: `ref.split('/').pop() || ''` — the segment after the
final `/` (the whole string when it has no `/`, and `""` only when the
string ends in `/` or is empty). -/
def extractRefName (r : String) : String :=
  String.mk ((splitSegs '/' r.data).getLastD [])

/-- JavaScript `Set.add`: append the element unless already present. -/
def insertName (n : String) (l : List String) : List String :=
  if n ∈ l then l else l ++ [n]

/-- JavaScript object property access: the (unique) binding for a key,
modelled as first-match lookup in the association list. -/
def lookupName {α : Type} (pool : List (String × α)) (k : String) : Option α :=
  match pool with
  | [] => none
  | (n, s) :: rest => if n = k then some s else lookupName rest k

/-- JavaScript `delete obj[k]`. -/
def eraseKey {α : Type} (k : String) (l : List (String × α)) : List (String × α) :=
  l.filter (fun e => !(decide (e.1 = k)))

/-- JavaScript truthiness of the `$ref` field: present and a non-empty
string. -/
def truthyRef : Option String → Option String
  | some r => if r = "" then none else some r
  | none => none

/-- The mutable pair of sets threaded through `collectSchemaRefs`: the
accumulator `refs` and the per-call cycle-protection set `visited`. -/
structure CState where
  refs : List String
  visited : List String

/-- One work item of the reference collector: a single schema, a combinator
list, or an object's property list. -/
inductive CTask where
  | one (s : Schema)
  | many (l : SchemaList)
  | props (l : PropList)

def taskSize : CTask → Nat
  | .one s => schemaSize s
  | .many l => listSize l
  | .props l => propsSize l

/-- The body of `collectSchemaRefs` (source lines 159–204), with explicit
fuel consumed on every recursive call so the recursion is structural.  On a
truthy `$ref` the target name is recorded, and — once per name per top-level
call, tracked by `visited` — the name is resolved in the pool and the
resolved schema traversed.  Otherwise the node's `items`, `properties`,
object-shaped `additionalProperties`, and `allOf`/`oneOf`/`anyOf` children
are traversed in source order. -/
def collectGo (pool : List (String × Schema)) : Nat → CTask → CState → CState
  | 0, _, st => st
  | fuel + 1, t, st =>
    match t with
    | .many .nil => st
    | .many (.cons s rest) =>
      collectGo pool fuel (.many rest) (collectGo pool fuel (.one s) st)
    | .props .nil => st
    | .props (.cons _ s rest) =>
      collectGo pool fuel (.props rest) (collectGo pool fuel (.one s) st)
    | .one (.mk ref items props addProps allOf oneOf anyOf) =>
      match truthyRef ref with
      | some r =>
        let refName := extractRefName r
        let st1 : CState := ⟨insertName refName st.refs, st.visited⟩
        if refName ∈ st.visited then st1
        else
          let st2 : CState := ⟨st1.refs, insertName refName st.visited⟩
          match lookupName pool refName with
          | some body => collectGo pool fuel (.one body) st2
          | none => st2
      | none =>
        let st1 := match items with
          | some it => collectGo pool fuel (.one it) st
          | none => st
        let st2 := collectGo pool fuel (.props props) st1
        let st3 := match addProps with
          | some (.inr s) => collectGo pool fuel (.one s) st2
          | _ => st2
        let st4 := collectGo pool fuel (.many allOf) st3
        let st5 := collectGo pool fuel (.many oneOf) st4
        collectGo pool fuel (.many anyOf) st5
termination_by structural fuel => fuel

/-- Largest schema stored in the pool (0 for the empty pool). -/
def maxPoolSize (pool : List (String × Schema)) : Nat :=
  pool.foldr (fun e m => max (schemaSize e.2) m) 0

/-- How many pool entries have a key not yet in `visited` (entries with
duplicate keys counted multiply — an upper bound on possible expansions). -/
def countUnvisited (pool : List (String × Schema)) (visited : List String) : Nat :=
  match pool with
  | [] => 0
  | (k, _) :: rest => (if k ∈ visited then 0 else 1) + countUnvisited rest visited

/-- Fuel that certainly suffices for `collectGo pool _ t st`. -/
def collectBound (pool : List (String × Schema)) (t : CTask) (visited : List String) : Nat :=
  taskSize t + (1 + maxPoolSize pool) * countUnvisited pool visited

/-- Canonical fuel for a top-level collection call. -/
def topFuel (pool : List (String × Schema)) (s : Schema) : Nat :=
  schemaSize s + (1 + maxPoolSize pool) * pool.length

/-- `collectSchemaRefs(schema, refs)` — every call site in the source uses a
fresh `visited` set (the default argument). -/
def collectSchemaRefs (pool : List (String × Schema)) (s : Schema)
    (refs : List String) : List String :=
  (collectGo pool (topFuel pool s) (.one s) ⟨refs, []⟩).refs

/-- Chooses between the reference-node contribution and the structural
contribution of a schema node, according to the truthiness of its `$ref`. -/
def dRefCase (tref : Option String) (structural : List String) : List String :=
  match tref with
  | some r => [extractRefName r]
  | none => structural

/- The schema names a schema node mentions directly (its own `$ref`
targets, without resolving through the pool).  A truthy-`$ref` node
contributes only its target, matching the collector's early return. -/
mutual
def schemaDirectRefs : Schema → List String
  | .mk ref items props addProps allOf oneOf anyOf =>
    dRefCase (truthyRef ref)
      ((match items with | some it => schemaDirectRefs it | none => [])
       ++ propsDirectRefs props
       ++ (match addProps with | some (.inr s) => schemaDirectRefs s | _ => [])
       ++ listDirectRefs allOf ++ listDirectRefs oneOf ++ listDirectRefs anyOf)
def listDirectRefs : SchemaList → List String
  | .nil => []
  | .cons s rest => schemaDirectRefs s ++ listDirectRefs rest
def propsDirectRefs : PropList → List String
  | .nil => []
  | .cons _ s rest => schemaDirectRefs s ++ propsDirectRefs rest
end

def taskDirectRefs : CTask → List String
  | .one s => schemaDirectRefs s
  | .many l => listDirectRefs l
  | .props l => propsDirectRefs l

/-- A parameter as read by the editor: only its `schema` field is ever
traversed (the interface's `name`/`in`/`required` fields do not influence
the algorithms). -/
structure Parameter where
  schema : Option Schema

/-- One media-type entry of a `content` object: `{ schema }`. -/
structure MediaObject where
  schema : Option Schema

/-- A request body: a `content` map of media type to media object. -/
structure RequestBody where
  content : List (String × MediaObject)

/-- A response: an optional `content` map. -/
structure Response where
  content : Option (List (String × MediaObject))

/-- An operation: optional `operationId`, tag names (`operation.tags || []`
is modelled as a plain list), optional parameters, optional request body,
and the status-code → response map. -/
structure Operation where
  operationId : Option String
  tags : List String
  parameters : Option (List Parameter)
  requestBody : Option RequestBody
  responses : List (String × Response)

/-- The fixed HTTP method slots of a path item. -/
inductive Method where
  | get | post | put | delete | patch | options | head | trace
deriving DecidableEq

/-- The method enumeration order used by every loop in the source:
`['get', 'post', 'put', 'delete', 'patch', 'options', 'head', 'trace']`. -/
def methodsOrder : List Method :=
  [.get, .post, .put, .delete, .patch, .options, .head, .trace]

/-- A path item: the eight method slots of the `PathItem` interface plus the
runtime `parameters` field that `getAllUsedRefs` reads (path-level
parameters).  `Object.keys(pathItem)` counts the fields present. -/
structure PathItem where
  get : Option Operation
  post : Option Operation
  put : Option Operation
  delete : Option Operation
  patch : Option Operation
  options : Option Operation
  head : Option Operation
  trace : Option Operation
  parameters : Option (List Parameter)

def PathItem.getM (it : PathItem) : Method → Option Operation
  | .get => it.get
  | .post => it.post
  | .put => it.put
  | .delete => it.delete
  | .patch => it.patch
  | .options => it.options
  | .head => it.head
  | .trace => it.trace

/-- JavaScript `delete pathItem[method]`. -/
def PathItem.setNone (it : PathItem) : Method → PathItem
  | .get => { it with get := none }
  | .post => { it with post := none }
  | .put => { it with put := none }
  | .delete => { it with delete := none }
  | .patch => { it with patch := none }
  | .options => { it with options := none }
  | .head => { it with head := none }
  | .trace => { it with trace := none }

/-- `Object.keys(pathItem).length`: the number of fields present on the
path-item object — method slots and the path-level `parameters` field. -/
def PathItem.keyCount (it : PathItem) : Nat :=
  (methodsOrder.filter (fun m => (it.getM m).isSome)).length
    + (if it.parameters.isSome then 1 else 0)

/-- A document tag: referenced from operations by `name` only. -/
structure Tag where
  name : String

/-- The component pool: named schemas, parameters, responses, and request
bodies (the latter handled by the editor though absent from the declared
interface). -/
structure Components where
  schemas : Option (List (String × Schema))
  parameters : Option (List (String × Parameter))
  responses : Option (List (String × Response))
  requestBodies : Option (List (String × RequestBody))

/-- The document: the path table, the optional component pool, and the
optional document-level tag list. -/
structure OpenAPIDocument where
  paths : List (String × PathItem)
  components : Option Components
  tags : Option (List Tag)

/-- `this.document.components?.schemas` with absent treated as the empty
pool, as the collector's `getSchemaByRef` does. -/
def schemasOf (d : OpenAPIDocument) : List (String × Schema) :=
  match d.components with
  | some c => c.schemas.getD []
  | none => []

/-- Add a list of names to a set in order (`forEach(t => set.add(t))`). -/
def addNames (l : List String) (acc : List String) : List String :=
  l.foldl (fun a t => insertName t a) acc

/-- Schema references of a parameter list (`params.forEach(p => if
(p.schema) collectSchemaRefs(p.schema, refs))`). -/
def paramListRefs (pool : List (String × Schema)) (ps : List Parameter)
    (u : List String) : List String :=
  ps.foldl (fun u p => match p.schema with
    | some s => collectSchemaRefs pool s u
    | none => u) u

/-- The parameter walk guarded by presence of the (optional) list. -/
def optParamsRefs (pool : List (String × Schema)) (params : Option (List Parameter))
    (u : List String) : List String :=
  match params with
  | some ps => paramListRefs pool ps u
  | none => u

/-- Schema references of a `content` map
(`Object.values(content).forEach(c => if (c.schema) ...)`). -/
def contentRefs (pool : List (String × Schema)) (cs : List (String × MediaObject))
    (u : List String) : List String :=
  cs.foldl (fun u cc => match cc.2.schema with
    | some s => collectSchemaRefs pool s u
    | none => u) u

/-- `collectRefs(operation, refs)`: schema references of the operation's
parameters, request-body content, and response content, in source order. -/
def collectRefs (pool : List (String × Schema)) (op : Operation)
    (refs : List String) : List String :=
  let refs := optParamsRefs pool op.parameters refs
  let refs := match op.requestBody with
    | some rb => contentRefs pool rb.content refs
    | none => refs
  op.responses.foldl (fun r resp => match resp.2.content with
    | some cs => contentRefs pool cs r
    | none => r) refs

/-- The method-slot walk of one path item inside `getAllUsedRefs`. -/
def methodsRefs (pool : List (String × Schema)) (item : PathItem)
    (u : List String) : List String :=
  methodsOrder.foldl (fun u m => match item.getM m with
    | some op => collectRefs pool op u
    | none => u) u

/-- The paths walk of `getAllUsedRefs`: path-level parameters first, then
every method slot. -/
def pathsRefs (pool : List (String × Schema)) (paths : List (String × PathItem))
    (u : List String) : List String :=
  paths.foldl (fun u pi => methodsRefs pool pi.2 (optParamsRefs pool pi.2.parameters u)) u

/-- The reusable-parameter walk of `getAllUsedRefs`. -/
def compParamsRefs (pool : List (String × Schema))
    (ps : Option (List (String × Parameter))) (u : List String) : List String :=
  match ps with
  | some pl => pl.foldl (fun u p => match p.2.schema with
      | some s => collectSchemaRefs pool s u
      | none => u) u
  | none => u

/-- The reusable-request-body walk of `getAllUsedRefs`. -/
def compRequestBodiesRefs (pool : List (String × Schema))
    (rbs : Option (List (String × RequestBody))) (u : List String) : List String :=
  match rbs with
  | some rl => rl.foldl (fun u rb => contentRefs pool rb.2.content u) u
  | none => u

/-- The reusable-response walk of `getAllUsedRefs`. -/
def compResponsesRefs (pool : List (String × Schema))
    (rs : Option (List (String × Response))) (u : List String) : List String :=
  match rs with
  | some rl => rl.foldl (fun u resp => match resp.2.content with
      | some cs => contentRefs pool cs u
      | none => u) u
  | none => u

/-- `getAllUsedRefs()`: every reference name used by the surviving path
table (path-level parameters and all method operations) and by the reusable
parameter, request-body and response pools. -/
def getAllUsedRefs (d : OpenAPIDocument) : List String :=
  let pool := schemasOf d
  let u := pathsRefs pool d.paths []
  match d.components with
  | none => u
  | some c =>
    compResponsesRefs pool c.responses
      (compRequestBodiesRefs pool c.requestBodies
        (compParamsRefs pool c.parameters u))

/-- One iteration sequence of the `deleteSchemas` do-loop body: iterate the
candidate snapshot; a candidate still present may be deleted when every
reference its body collects (against the current pool) is not a candidate
or no longer present. -/
def deleteSchemasPass :
    List String → List (String × Schema) → List String → Bool →
    List (String × Schema) × List String × Bool
  | [], schemas, cands, del => (schemas, cands, del)
  | n :: rest, schemas, cands, del =>
    match lookupName schemas n with
    | none => deleteSchemasPass rest schemas cands del
    | some body =>
      let references := collectSchemaRefs schemas body []
      let canDelete := references.all (fun r =>
        !(decide (r ∈ cands)) || !(lookupName schemas r).isSome)
      if canDelete then
        deleteSchemasPass rest (eraseKey n schemas)
          (cands.filter (fun x => !(decide (x = n)))) true
      else deleteSchemasPass rest schemas cands del

/-- The `do … while (deleted && schemasToDelete.size > 0)` loop.  Each
continuing iteration has deleted at least one candidate, so
`cands.length + 1` units of fuel reach the loop's exit. -/
def deleteSchemasLoop :
    Nat → List (String × Schema) → List String → List (String × Schema)
  | 0, schemas, _ => schemas
  | fuel + 1, schemas, cands =>
    match deleteSchemasPass cands schemas cands false with
    | (schemas', cands', del) =>
      if del && decide (0 < cands'.length) then deleteSchemasLoop fuel schemas' cands'
      else schemas'

/-- `deleteSchemas(schemasToDelete)`: dependency-ordered sweep over the
schema pool. -/
def deleteSchemas (schemas : List (String × Schema)) (cands : List String) :
    List (String × Schema) :=
  deleteSchemasLoop (cands.length + 1) schemas cands

/-- `cleanupUnusedRefs(refs)` — the `refs` argument is unused by the source:
liveness is recomputed from scratch by `getAllUsedRefs`.  Reusable
parameters, responses and request bodies not in the live set are deleted
outright; dead schemas go through the dependency-ordered sweep. -/
def cleanupUnusedRefs (d : OpenAPIDocument) (_refs : List String) : OpenAPIDocument :=
  let usedRefs := getAllUsedRefs d
  match d.components with
  | none => d
  | some c =>
    let schemasToDelete := match c.schemas with
      | some sl => (sl.map Prod.fst).filter (fun n => !(decide (n ∈ usedRefs)))
      | none => []
    let c1 : Components :=
      { c with
        parameters := c.parameters.map (fun pl =>
          pl.filter (fun e => decide (e.1 ∈ usedRefs)))
        responses := c.responses.map (fun rl =>
          rl.filter (fun e => decide (e.1 ∈ usedRefs)))
        requestBodies := c.requestBodies.map (fun rl =>
          rl.filter (fun e => decide (e.1 ∈ usedRefs))) }
    let schemas' := c1.schemas.map (fun sl => deleteSchemas sl schemasToDelete)
    { d with components := some { c1 with schemas := schemas' } }

/-- The tag names used by the operations of a path table. -/
def usedTagsOf (paths : List (String × PathItem)) : List String :=
  paths.foldl (fun u pi =>
    methodsOrder.foldl (fun u m => match pi.2.getM m with
      | some op => addNames op.tags u
      | none => u) u) []

/-- `cleanupUnusedTags(deletedTags)`: nothing happens when the document has
no (or an empty) tag list or no tags were on the deleted operations;
otherwise keep a tag unless it belonged to a deleted operation and no
surviving operation still uses it, dropping the list entirely if the filter
empties it. -/
def cleanupUnusedTags (d : OpenAPIDocument) (deletedTags : List String) : OpenAPIDocument :=
  match d.tags with
  | none => d
  | some tl =>
    if tl.isEmpty || deletedTags.isEmpty then d
    else
      let usedTags := usedTagsOf d.paths
      let tl' := tl.filter (fun t =>
        !(decide (t.name ∈ deletedTags)) || decide (t.name ∈ usedTags))
      if tl'.isEmpty then { d with tags := none } else { d with tags := some tl' }

/-- The inner `for (const method of methods)` loop of `deleteFunction`: on a
matching slot, record the operation's tags and collected references, clear
the slot and set the deleted flag.  There is no early exit, so every
matching slot of the item is cleared. -/
def removeMethods (pool : List (String × Schema)) (opId : String) :
    List Method → PathItem → List String → List String → Bool →
    PathItem × List String × List String × Bool
  | [], it, tg, rf, del => (it, tg, rf, del)
  | m :: ms, it, tg, rf, del =>
    match it.getM m with
    | some op =>
      if op.operationId = some opId then
        removeMethods pool opId ms (it.setNone m) (addNames op.tags tg)
          (collectRefs pool op rf) true
      else removeMethods pool opId ms it tg rf del
    | none => removeMethods pool opId ms it tg rf del

/-- The outer `for (const path in paths)` loop: process each path item's
method slots; drop the path entry when a deletion in this item left the
item object with no keys at all. -/
def removePaths (pool : List (String × Schema)) (opId : String) :
    List (String × PathItem) → List String → List String → Bool →
    List (String × PathItem) × List String × List String × Bool
  | [], tg, rf, del => ([], tg, rf, del)
  | (p, item) :: rest, tg, rf, del =>
    match removeMethods pool opId methodsOrder item tg rf false with
    | (item', tg', rf', hereDel) =>
      match removePaths pool opId rest tg' rf' (del || hereDel) with
      | (restPaths, tg2, rf2, del2) =>
        (if hereDel && decide (item'.keyCount = 0) then restPaths
         else (p, item') :: restPaths, tg2, rf2, del2)

/-- `deleteFunction(operationId)` (source lines 88–125): remove every
matching operation from the path table, then — only when something was
deleted — clean up unused references and tags.  Mutation of the wrapped
document is modelled by returning the new document with the boolean
result. -/
def deleteFunction (d : OpenAPIDocument) (opId : String) : OpenAPIDocument × Bool :=
  match removePaths (schemasOf d) opId d.paths [] [] false with
  | (paths', deletedTags, unusedRefs, deleted) =>
    let d1 : OpenAPIDocument := { d with paths := paths' }
    if deleted then
      let d2 := cleanupUnusedRefs d1 unusedRefs
      let d3 := cleanupUnusedTags d2 deletedTags
      (d3, true)
    else (d1, false)

/-- The document state after the operation-removal phase and before the
reference/tag cleanup (`deleteFunction`'s state when the loops over
`paths` finish). -/
def midDoc (d : OpenAPIDocument) (opId : String) : OpenAPIDocument :=
  { d with paths := (removePaths (schemasOf d) opId d.paths [] [] false).1 }

/-- Names of the pool schemas. -/
def schemaKeys (d : OpenAPIDocument) : List String :=
  (schemasOf d).map Prod.fst

/-- The reusable-parameter pool (empty when absent). -/
def paramsOf (d : OpenAPIDocument) : List (String × Parameter) :=
  match d.components with
  | some c => c.parameters.getD []
  | none => []

/-- The reusable-response pool (empty when absent). -/
def responsesOf (d : OpenAPIDocument) : List (String × Response) :=
  match d.components with
  | some c => c.responses.getD []
  | none => []

/-- The reusable-request-body pool (empty when absent). -/
def requestBodiesOf (d : OpenAPIDocument) : List (String × RequestBody) :=
  match d.components with
  | some c => c.requestBodies.getD []
  | none => []

/-! ### Basic facts about the set and map models -/

theorem mem_insertName {n m : String} {l : List String} :
    n ∈ insertName m l ↔ n = m ∨ n ∈ l := by
  unfold insertName
  split
  · constructor
    · exact Or.inr
    · rintro (rfl | h)
      · assumption
      · exact h
  · simp [or_comm]

theorem self_mem_insertName (m : String) (l : List String) : m ∈ insertName m l := by
  simp [mem_insertName]

theorem mem_insertName_of_mem {n m : String} {l : List String} (h : n ∈ l) :
    n ∈ insertName m l := by
  simp [mem_insertName, h]

theorem mem_addNames {n : String} {l acc : List String} :
    n ∈ addNames l acc ↔ n ∈ l ∨ n ∈ acc := by
  induction l generalizing acc with
  | nil => simp [addNames]
  | cons t ts ih =>
    simp only [addNames, List.foldl_cons] at *
    rw [ih]
    simp [mem_insertName]
    tauto

theorem lookupName_mem_keys {α : Type} {l : List (String × α)} {k : String} {v : α}
    (h : lookupName l k = some v) : k ∈ l.map Prod.fst := by
  induction l with
  | nil => simp [lookupName] at h
  | cons e rest ih =>
    obtain ⟨n, s⟩ := e
    simp only [lookupName] at h
    split at h
    · simp_all
    · simp [ih h]

theorem mem_keys_lookupName {α : Type} {l : List (String × α)} {k : String}
    (h : k ∈ l.map Prod.fst) : ∃ v, lookupName l k = some v := by
  induction l with
  | nil => simp at h
  | cons e rest ih =>
    obtain ⟨n, s⟩ := e
    simp only [lookupName]
    by_cases hk : n = k
    · exact ⟨s, by simp [hk]⟩
    · simp only [List.map_cons, List.mem_cons] at h
      rcases h with h | h
      · exact absurd h.symm hk
      · simpa [hk] using ih h

theorem lookupName_eraseKey {α : Type} (n k : String) (l : List (String × α)) :
    lookupName (eraseKey n l) k = if k = n then none else lookupName l k := by
  induction l with
  | nil => simp [eraseKey, lookupName]
  | cons e rest ih =>
    obtain ⟨m, v⟩ := e
    by_cases hm : m = n
    · subst hm
      have he : eraseKey m ((m, v) :: rest) = eraseKey m rest := by simp [eraseKey]
      rw [he, ih]
      by_cases hk : k = m
      · simp [hk]
      · simp only [hk, if_false]
        have hmk : ¬ m = k := fun h => hk h.symm
        simp [lookupName, hmk]
    · have he : eraseKey n ((m, v) :: rest) = (m, v) :: eraseKey n rest := by
        simp [eraseKey, hm]
      rw [he]
      simp only [lookupName]
      by_cases hk : m = k
      · have hkn : ¬ k = n := fun h => hm (hk.trans h)
        simp [hk, hkn, ih]
      · simp [hk, ih]

theorem lookupName_of_lookupName_eraseKey {α : Type} {n k : String}
    {l : List (String × α)} {v : α} (h : lookupName (eraseKey n l) k = some v) :
    lookupName l k = some v := by
  rw [lookupName_eraseKey] at h
  split at h
  · exact absurd h (by simp)
  · exact h

/-! ### Size positivity and bound arithmetic -/

theorem schemaSize_pos (s : Schema) : 1 ≤ schemaSize s := by
  cases s with
  | mk ref items props addProps allOf oneOf anyOf =>
    unfold schemaSize
    omega

theorem listSize_pos (l : SchemaList) : 1 ≤ listSize l := by
  cases l <;> unfold listSize <;> omega

theorem propsSize_pos (l : PropList) : 1 ≤ propsSize l := by
  cases l <;> unfold propsSize <;> omega

theorem taskSize_pos (t : CTask) : 1 ≤ taskSize t := by
  cases t with
  | one s => exact schemaSize_pos s
  | many l => exact listSize_pos l
  | props l => exact propsSize_pos l

theorem schemaSize_le_maxPoolSize {pool : List (String × Schema)} {k : String}
    {b : Schema} (h : lookupName pool k = some b) :
    schemaSize b ≤ maxPoolSize pool := by
  induction pool with
  | nil => simp [lookupName] at h
  | cons e rest ih =>
    obtain ⟨n, s⟩ := e
    simp only [lookupName] at h
    simp only [maxPoolSize, List.foldr_cons]
    split at h
    · cases h
      exact le_max_left _ _
    · exact le_trans (ih h) (le_max_right _ _)

theorem countUnvisited_le_length (pool : List (String × Schema)) (visited : List String) :
    countUnvisited pool visited ≤ pool.length := by
  induction pool with
  | nil => simp [countUnvisited]
  | cons e rest ih =>
    obtain ⟨k, s⟩ := e
    simp only [countUnvisited, List.length_cons]
    split <;> omega

theorem countUnvisited_anti {pool : List (String × Schema)} {v v' : List String}
    (h : ∀ n ∈ v, n ∈ v') : countUnvisited pool v' ≤ countUnvisited pool v := by
  induction pool with
  | nil => simp [countUnvisited]
  | cons e rest ih =>
    obtain ⟨k, s⟩ := e
    simp only [countUnvisited]
    by_cases hk : k ∈ v
    · simp only [hk, if_true, h k hk, if_true]
      omega
    · by_cases hk' : k ∈ v' <;> simp only [hk, hk', if_true, if_false] <;> omega

theorem countUnvisited_insert_lt {pool : List (String × Schema)} {k : String}
    {visited : List String} {b : Schema} (hl : lookupName pool k = some b)
    (hk : k ∉ visited) :
    countUnvisited pool (insertName k visited) < countUnvisited pool visited := by
  induction pool with
  | nil => simp [lookupName] at hl
  | cons e rest ih =>
    obtain ⟨n, s⟩ := e
    simp only [lookupName] at hl
    simp only [countUnvisited]
    split at hl
    · rename_i hn
      have h1 : n ∈ insertName k visited := hn ▸ self_mem_insertName k visited
      have h2 : n ∉ visited := hn ▸ hk
      simp only [h1, if_true, h2, if_false]
      have := @countUnvisited_anti rest visited (insertName k visited)
        (fun x hx => @mem_insertName_of_mem x k visited hx)
      omega
    · have := ih hl
      by_cases hn : n ∈ visited
      · simp only [hn, if_true, mem_insertName_of_mem hn, if_true]
        omega
      · by_cases hn' : n ∈ insertName k visited <;>
          simp only [hn, hn', if_true, if_false] <;> omega

theorem countUnvisited_nil (pool : List (String × Schema)) :
    countUnvisited pool [] = pool.length := by
  induction pool with
  | nil => simp [countUnvisited]
  | cons e rest ih =>
    obtain ⟨k, s⟩ := e
    simp [countUnvisited, ih]
    omega

theorem topFuel_ge_bound (pool : List (String × Schema)) (s : Schema) :
    collectBound pool (.one s) [] ≤ topFuel pool s := by
  simp [collectBound, topFuel, taskSize, countUnvisited_nil]

/-! ### Monotonicity of the collector: both sets only grow -/

/-- Pointwise containment of collector states. -/
def CLe (a b : CState) : Prop :=
  (∀ n ∈ a.refs, n ∈ b.refs) ∧ (∀ n ∈ a.visited, n ∈ b.visited)

theorem cle_refl (a : CState) : CLe a a := ⟨fun _ h => h, fun _ h => h⟩

theorem cle_trans {a b c : CState} (h1 : CLe a b) (h2 : CLe b c) : CLe a c :=
  ⟨fun n h => h2.1 n (h1.1 n h), fun n h => h2.2 n (h1.2 n h)⟩

theorem collectGo_mono (pool : List (String × Schema)) (fuel : Nat) :
    ∀ t st, CLe st (collectGo pool fuel t st) := by
  induction fuel with
  | zero => intro t st; exact cle_refl st
  | succ fuel ih =>
    intro t st
    match t with
    | .many .nil => exact cle_refl st
    | .many (.cons s rest) =>
      show CLe st (collectGo pool fuel (.many rest) (collectGo pool fuel (.one s) st))
      exact cle_trans (ih (.one s) st) (ih (.many rest) _)
    | .props .nil => exact cle_refl st
    | .props (.cons nm s rest) =>
      show CLe st (collectGo pool fuel (.props rest) (collectGo pool fuel (.one s) st))
      exact cle_trans (ih (.one s) st) (ih (.props rest) _)
    | .one (.mk ref items props addProps allOf oneOf anyOf) =>
      cases htr : truthyRef ref with
      | some r =>
        simp only [collectGo, htr]
        by_cases hv : extractRefName r ∈ st.visited
        · simp only [hv, if_true]
          exact ⟨fun n h => mem_insertName_of_mem h, fun n h => h⟩
        · simp only [hv, if_false]
          have base : CLe st ⟨insertName (extractRefName r) st.refs,
              insertName (extractRefName r) st.visited⟩ :=
            ⟨fun n h => mem_insertName_of_mem h, fun n h => mem_insertName_of_mem h⟩
          cases hl : lookupName pool (extractRefName r) with
          | some body =>
            simp only [hl]
            exact cle_trans base (ih (.one body) _)
          | none => simp only [hl]; exact base
      | none =>
        cases items <;> rcases addProps with _ | b | sc <;>
          · simp only [collectGo, htr]
            repeat first
              | exact cle_refl _
              | exact ih _ _
              | refine cle_trans ?_ (ih _ _)

/-! ### Frame property: the `refs` accumulator is write-only -/

/-- A state transformer whose `visited` evolution ignores the incoming
`refs`, and whose final `refs` is the incoming `refs` plus a contribution
independent of it. -/
def FrameFn (f : CState → CState) : Prop :=
  (∀ V R R', (f ⟨R, V⟩).visited = (f ⟨R', V⟩).visited) ∧
  (∀ V R n, n ∈ (f ⟨R, V⟩).refs ↔ n ∈ R ∨ n ∈ (f ⟨[], V⟩).refs)

theorem FrameFn.id : FrameFn (fun st => st) :=
  ⟨fun _ _ _ => rfl, fun _ _ _ => by simp⟩

theorem CState.eta (a : CState) : a = ⟨a.refs, a.visited⟩ := rfl

theorem FrameFn.comp {f g : CState → CState} (hf : FrameFn f) (hg : FrameFn g) :
    FrameFn (fun st => g (f st)) := by
  constructor
  · intro V R R'
    show (g (f ⟨R, V⟩)).visited = (g (f ⟨R', V⟩)).visited
    calc (g (f ⟨R, V⟩)).visited
        = (g ⟨(f ⟨R, V⟩).refs, (f ⟨R, V⟩).visited⟩).visited := rfl
      _ = (g ⟨(f ⟨R', V⟩).refs, (f ⟨R, V⟩).visited⟩).visited :=
          hg.1 (f ⟨R, V⟩).visited (f ⟨R, V⟩).refs (f ⟨R', V⟩).refs
      _ = (g ⟨(f ⟨R', V⟩).refs, (f ⟨R', V⟩).visited⟩).visited := by rw [hf.1 V R R']
      _ = (g (f ⟨R', V⟩)).visited := rfl
  · intro V R n
    show n ∈ (g (f ⟨R, V⟩)).refs ↔ n ∈ R ∨ n ∈ (g (f ⟨[], V⟩)).refs
    have hVf : (f ⟨[], V⟩).visited = (f ⟨R, V⟩).visited := hf.1 V [] R
    have e1 : n ∈ (g (f ⟨R, V⟩)).refs ↔
        n ∈ (f ⟨R, V⟩).refs ∨ n ∈ (g ⟨[], (f ⟨R, V⟩).visited⟩).refs :=
      hg.2 (f ⟨R, V⟩).visited (f ⟨R, V⟩).refs n
    have e2 : n ∈ (f ⟨R, V⟩).refs ↔ n ∈ R ∨ n ∈ (f ⟨[], V⟩).refs := hf.2 V R n
    have e3 : n ∈ (g (f ⟨[], V⟩)).refs ↔
        n ∈ (f ⟨[], V⟩).refs ∨ n ∈ (g ⟨[], (f ⟨R, V⟩).visited⟩).refs := by
      calc n ∈ (g (f ⟨[], V⟩)).refs
          ↔ n ∈ (g ⟨(f ⟨[], V⟩).refs, (f ⟨[], V⟩).visited⟩).refs := Iff.rfl
        _ ↔ n ∈ (g ⟨(f ⟨[], V⟩).refs, (f ⟨R, V⟩).visited⟩).refs := by rw [hVf]
        _ ↔ n ∈ (f ⟨[], V⟩).refs ∨ n ∈ (g ⟨[], (f ⟨R, V⟩).visited⟩).refs :=
            hg.2 (f ⟨R, V⟩).visited (f ⟨[], V⟩).refs n
    rw [e1, e2, e3]
    tauto

theorem collectGo_frame (pool : List (String × Schema)) (fuel : Nat) :
    ∀ t, FrameFn (fun st => collectGo pool fuel t st) := by
  induction fuel with
  | zero => intro t; exact FrameFn.id
  | succ fuel ih =>
    intro t
    match t with
    | .many .nil => exact FrameFn.id
    | .many (.cons s rest) =>
      exact @FrameFn.comp (fun st => collectGo pool fuel (.one s) st)
        (fun st => collectGo pool fuel (.many rest) st) (ih (.one s)) (ih (.many rest))
    | .props .nil => exact FrameFn.id
    | .props (.cons nm s rest) =>
      exact @FrameFn.comp (fun st => collectGo pool fuel (.one s) st)
        (fun st => collectGo pool fuel (.props rest) st) (ih (.one s)) (ih (.props rest))
    | .one (.mk ref items props addProps allOf oneOf anyOf) =>
      cases htr : truthyRef ref with
      | some r =>
        constructor
        · intro V R R'
          simp only [collectGo, htr]
          by_cases hv : extractRefName r ∈ V
          · simp [hv]
          · simp only [hv, if_false]
            cases hl : lookupName pool (extractRefName r) with
            | some body =>
              simp only [hl]
              exact (ih (.one body)).1 (insertName (extractRefName r) V)
                (insertName (extractRefName r) R) (insertName (extractRefName r) R')
            | none => simp [hl]
        · intro V R n
          simp only [collectGo, htr]
          by_cases hv : extractRefName r ∈ V
          · simp only [hv, if_true]
            simp [mem_insertName]
            tauto
          · simp only [hv, if_false]
            cases hl : lookupName pool (extractRefName r) with
            | some body =>
              simp only [hl]
              have e1 := (ih (.one body)).2 (insertName (extractRefName r) V)
                (insertName (extractRefName r) R) n
              have e2 := (ih (.one body)).2 (insertName (extractRefName r) V)
                (insertName (extractRefName r) []) n
              rw [e1, e2]
              simp [mem_insertName]
              tauto
            | none =>
              simp only [hl]
              simp [mem_insertName]
              tauto
      | none =>
        have hbody : ∀ st, collectGo pool (fuel + 1)
            (.one (.mk ref items props addProps allOf oneOf anyOf)) st =
            collectGo pool fuel (.many anyOf) (collectGo pool fuel (.many oneOf)
              (collectGo pool fuel (.many allOf)
                ((match addProps with
                  | some (.inr sc) => fun st2 => collectGo pool fuel (.one sc) st2
                  | _ => fun st2 => st2)
                  (collectGo pool fuel (.props props)
                    ((match items with
                      | some it => fun st0 => collectGo pool fuel (.one it) st0
                      | none => fun st0 => st0) st))))) := by
          intro st
          simp only [collectGo, htr]
          cases items <;> rcases addProps with _ | b | sc <;> rfl
        have hItems : FrameFn (fun st => (match items with
            | some it => fun st0 => collectGo pool fuel (.one it) st0
            | none => fun st0 => st0) st) := by
          cases items with
          | some it => exact ih (.one it)
          | none => exact FrameFn.id
        have hAdd : FrameFn (fun st => (match addProps with
            | some (.inr sc) => fun st2 => collectGo pool fuel (.one sc) st2
            | _ => fun st2 => st2) st) := by
          rcases addProps with _ | b | sc
          · exact FrameFn.id
          · exact FrameFn.id
          · exact ih (.one sc)
        have := FrameFn.comp (FrameFn.comp (FrameFn.comp (FrameFn.comp
          (FrameFn.comp hItems (ih (.props props))) hAdd)
          (ih (.many allOf))) (ih (.many oneOf))) (ih (.many anyOf))
        constructor
        · intro V R R'
          simp only [hbody]
          exact this.1 V R R'
        · intro V R n
          simp only [hbody]
          exact this.2 V R n

/-! ### Unfolding equations for the collector -/

/-- The `items` step of the structural walk as a function. -/
def itemsStep (pool : List (String × Schema)) (fuel : Nat) (items : Option Schema)
    (st : CState) : CState :=
  match items with
  | some it => collectGo pool fuel (.one it) st
  | none => st

/-- The `additionalProperties` step of the structural walk as a function. -/
def addStep (pool : List (String × Schema)) (fuel : Nat)
    (addProps : Option (Bool ⊕ Schema)) (st : CState) : CState :=
  match addProps with
  | some (.inr sc) => collectGo pool fuel (.one sc) st
  | _ => st

def itemsDirect (items : Option Schema) : List String :=
  match items with
  | some it => schemaDirectRefs it
  | none => []

def addDirect (addProps : Option (Bool ⊕ Schema)) : List String :=
  match addProps with
  | some (.inr sc) => schemaDirectRefs sc
  | _ => []

def itemsSize (items : Option Schema) : Nat :=
  match items with
  | some it => schemaSize it
  | none => 0

def addSize (addProps : Option (Bool ⊕ Schema)) : Nat :=
  match addProps with
  | some (.inr sc) => schemaSize sc
  | _ => 0

theorem schemaSize_mk (ref : Option String) (items : Option Schema) (props : PropList)
    (addProps : Option (Bool ⊕ Schema)) (allOf oneOf anyOf : SchemaList) :
    schemaSize (.mk ref items props addProps allOf oneOf anyOf) =
      1 + itemsSize items + propsSize props + addSize addProps
        + listSize allOf + listSize oneOf + listSize anyOf := by
  cases items <;> rcases addProps with _ | b | sc <;> rfl

theorem collectGo_one_ref {ref : Option String} {r : String}
    (pool : List (String × Schema)) (fuel : Nat) (items : Option Schema)
    (props : PropList) (addProps : Option (Bool ⊕ Schema))
    (allOf oneOf anyOf : SchemaList) (htr : truthyRef ref = some r) (st : CState) :
    collectGo pool (fuel + 1) (.one (.mk ref items props addProps allOf oneOf anyOf)) st =
      (if extractRefName r ∈ st.visited then
        (⟨insertName (extractRefName r) st.refs, st.visited⟩ : CState)
      else
        match lookupName pool (extractRefName r) with
        | some body => collectGo pool fuel (.one body)
            ⟨insertName (extractRefName r) st.refs, insertName (extractRefName r) st.visited⟩
        | none =>
            ⟨insertName (extractRefName r) st.refs, insertName (extractRefName r) st.visited⟩) := by
  simp only [collectGo, htr]

theorem collectGo_one_structural {ref : Option String}
    (pool : List (String × Schema)) (fuel : Nat) (items : Option Schema)
    (props : PropList) (addProps : Option (Bool ⊕ Schema))
    (allOf oneOf anyOf : SchemaList) (htr : truthyRef ref = none) (st : CState) :
    collectGo pool (fuel + 1) (.one (.mk ref items props addProps allOf oneOf anyOf)) st =
      collectGo pool fuel (.many anyOf) (collectGo pool fuel (.many oneOf)
        (collectGo pool fuel (.many allOf) (addStep pool fuel addProps
          (collectGo pool fuel (.props props) (itemsStep pool fuel items st))))) := by
  simp only [collectGo, htr]
  cases items <;> rcases addProps with _ | b | sc <;> rfl

theorem schemaDirectRefs_mk_ref {ref : Option String} {r : String}
    (items : Option Schema) (props : PropList) (addProps : Option (Bool ⊕ Schema))
    (allOf oneOf anyOf : SchemaList) (htr : truthyRef ref = some r) :
    schemaDirectRefs (.mk ref items props addProps allOf oneOf anyOf) =
      [extractRefName r] := by
  unfold schemaDirectRefs
  rw [htr]
  rfl

theorem schemaDirectRefs_mk_structural {ref : Option String}
    (items : Option Schema) (props : PropList) (addProps : Option (Bool ⊕ Schema))
    (allOf oneOf anyOf : SchemaList) (htr : truthyRef ref = none) :
    schemaDirectRefs (.mk ref items props addProps allOf oneOf anyOf) =
      itemsDirect items ++ propsDirectRefs props ++ addDirect addProps
        ++ listDirectRefs allOf ++ listDirectRefs oneOf ++ listDirectRefs anyOf := by
  unfold schemaDirectRefs
  rw [htr]
  cases items <;> rcases addProps with _ | b | sc <;> rfl

theorem collectGo_refs_mono (pool : List (String × Schema)) (fuel : Nat) (t : CTask)
    (st : CState) : ∀ n ∈ st.refs, n ∈ (collectGo pool fuel t st).refs :=
  (collectGo_mono pool fuel t st).1

theorem collectGo_visited_mono (pool : List (String × Schema)) (fuel : Nat) (t : CTask)
    (st : CState) : ∀ n ∈ st.visited, n ∈ (collectGo pool fuel t st).visited :=
  (collectGo_mono pool fuel t st).2

theorem itemsStep_refs_mono (pool : List (String × Schema)) (fuel : Nat)
    (items : Option Schema) (st : CState) :
    ∀ n ∈ st.refs, n ∈ (itemsStep pool fuel items st).refs := by
  cases items with
  | some it => exact collectGo_refs_mono pool fuel (.one it) st
  | none => exact fun n h => h

theorem addStep_refs_mono (pool : List (String × Schema)) (fuel : Nat)
    (addProps : Option (Bool ⊕ Schema)) (st : CState) :
    ∀ n ∈ st.refs, n ∈ (addStep pool fuel addProps st).refs := by
  rcases addProps with _ | b | sc
  · exact fun n h => h
  · exact fun n h => h
  · exact collectGo_refs_mono pool fuel (.one sc) st

theorem itemsStep_visited_mono (pool : List (String × Schema)) (fuel : Nat)
    (items : Option Schema) (st : CState) :
    ∀ n ∈ st.visited, n ∈ (itemsStep pool fuel items st).visited := by
  cases items with
  | some it => exact collectGo_visited_mono pool fuel (.one it) st
  | none => exact fun n h => h

theorem addStep_visited_mono (pool : List (String × Schema)) (fuel : Nat)
    (addProps : Option (Bool ⊕ Schema)) (st : CState) :
    ∀ n ∈ st.visited, n ∈ (addStep pool fuel addProps st).visited := by
  rcases addProps with _ | b | sc
  · exact fun n h => h
  · exact fun n h => h
  · exact collectGo_visited_mono pool fuel (.one sc) st

/-- Direct reference names of a work item are always recorded in the
accumulator, as long as the fuel covers the purely structural walk. -/
theorem collectGo_direct (pool : List (String × Schema)) (fuel : Nat) :
    ∀ t st, taskSize t ≤ fuel →
      ∀ n ∈ taskDirectRefs t, n ∈ (collectGo pool fuel t st).refs := by
  induction fuel with
  | zero =>
    intro t st hsz
    have := taskSize_pos t
    omega
  | succ fuel ih =>
    intro t st hsz
    match t with
    | .many .nil =>
      intro n hn
      simp only [taskDirectRefs] at hn
      unfold listDirectRefs at hn
      simp at hn
    | .many (.cons s rest) =>
      intro n hn
      simp only [taskDirectRefs] at hn
      unfold listDirectRefs at hn
      simp only [taskSize] at hsz
      unfold listSize at hsz
      have hb1 : schemaSize s ≤ fuel := by have := listSize_pos rest; omega
      have hb2 : listSize rest ≤ fuel := by have := schemaSize_pos s; omega
      show n ∈ (collectGo pool fuel (.many rest) (collectGo pool fuel (.one s) st)).refs
      rcases List.mem_append.mp hn with h | h
      · exact collectGo_refs_mono pool fuel (.many rest) _ n (ih (.one s) st hb1 n h)
      · exact ih (.many rest) _ hb2 n h
    | .props .nil =>
      intro n hn
      simp only [taskDirectRefs] at hn
      unfold propsDirectRefs at hn
      simp at hn
    | .props (.cons nm s rest) =>
      intro n hn
      simp only [taskDirectRefs] at hn
      unfold propsDirectRefs at hn
      simp only [taskSize] at hsz
      unfold propsSize at hsz
      have hb1 : schemaSize s ≤ fuel := by have := propsSize_pos rest; omega
      have hb2 : propsSize rest ≤ fuel := by have := schemaSize_pos s; omega
      show n ∈ (collectGo pool fuel (.props rest) (collectGo pool fuel (.one s) st)).refs
      rcases List.mem_append.mp hn with h | h
      · exact collectGo_refs_mono pool fuel (.props rest) _ n (ih (.one s) st hb1 n h)
      · exact ih (.props rest) _ hb2 n h
    | .one (.mk ref items props addProps allOf oneOf anyOf) =>
      intro n hn
      simp only [taskDirectRefs] at hn
      cases htr : truthyRef ref with
      | some r =>
        rw [schemaDirectRefs_mk_ref items props addProps allOf oneOf anyOf htr] at hn
        simp only [List.mem_singleton] at hn
        subst hn
        rw [collectGo_one_ref pool fuel items props addProps allOf oneOf anyOf htr st]
        by_cases hv : extractRefName r ∈ st.visited
        · simp only [hv, if_true]
          exact self_mem_insertName _ _
        · simp only [hv, if_false]
          cases hl : lookupName pool (extractRefName r) with
          | some body =>
            exact collectGo_refs_mono pool fuel (.one body) _ _ (self_mem_insertName _ _)
          | none => exact self_mem_insertName _ _
      | none =>
        rw [schemaDirectRefs_mk_structural items props addProps allOf oneOf anyOf htr] at hn
        rw [collectGo_one_structural pool fuel items props addProps allOf oneOf anyOf htr st]
        simp only [taskSize] at hsz
        rw [schemaSize_mk] at hsz
        have hbI : itemsSize items ≤ fuel := by
          have := propsSize_pos props
          have := listSize_pos allOf
          omega
        have hbP : propsSize props ≤ fuel := by
          have := listSize_pos allOf
          omega
        have hbA : addSize addProps ≤ fuel := by
          have := propsSize_pos props
          have := listSize_pos allOf
          omega
        have hbAll : listSize allOf ≤ fuel := by
          have := propsSize_pos props
          have := listSize_pos oneOf
          omega
        have hbOne : listSize oneOf ≤ fuel := by
          have := propsSize_pos props
          have := listSize_pos allOf
          omega
        have hbAny : listSize anyOf ≤ fuel := by
          have := propsSize_pos props
          have := listSize_pos allOf
          omega
        have hItemsD : ∀ st', n ∈ itemsDirect items →
            n ∈ (itemsStep pool fuel items st').refs := by
          intro st' h
          cases items with
          | some it => exact ih (.one it) st' hbI n h
          | none => simp [itemsDirect] at h
        have hAddD : ∀ st', n ∈ addDirect addProps →
            n ∈ (addStep pool fuel addProps st').refs := by
          intro st' h
          rcases addProps with _ | b | sc
          · simp [addDirect] at h
          · simp [addDirect] at h
          · exact ih (.one sc) st' hbA n h
        simp only [List.mem_append] at hn
        rcases hn with ((((h | h) | h) | h) | h) | h
        · exact collectGo_refs_mono pool fuel (.many anyOf) _ n
            (collectGo_refs_mono pool fuel (.many oneOf) _ n
              (collectGo_refs_mono pool fuel (.many allOf) _ n
                (addStep_refs_mono pool fuel addProps _ n
                  (collectGo_refs_mono pool fuel (.props props) _ n
                    (hItemsD st h)))))
        · exact collectGo_refs_mono pool fuel (.many anyOf) _ n
            (collectGo_refs_mono pool fuel (.many oneOf) _ n
              (collectGo_refs_mono pool fuel (.many allOf) _ n
                (addStep_refs_mono pool fuel addProps _ n
                  (ih (.props props) _ hbP n h))))
        · exact collectGo_refs_mono pool fuel (.many anyOf) _ n
            (collectGo_refs_mono pool fuel (.many oneOf) _ n
              (collectGo_refs_mono pool fuel (.many allOf) _ n
                (hAddD _ h)))
        · exact collectGo_refs_mono pool fuel (.many anyOf) _ n
            (collectGo_refs_mono pool fuel (.many oneOf) _ n
              (ih (.many allOf) _ hbAll n h))
        · exact collectGo_refs_mono pool fuel (.many anyOf) _ n
            (ih (.many oneOf) _ hbOne n h)
        · exact ih (.many anyOf) _ hbAny n h

theorem refsInVisited_comp (f g : CState → CState)
    (hf : ∀ st n, n ∈ (f st).refs → n ∈ st.refs ∨ n ∈ (f st).visited)
    (hg : ∀ st n, n ∈ (g st).refs → n ∈ st.refs ∨ n ∈ (g st).visited)
    (_hfm : ∀ st n, n ∈ st.visited → n ∈ (f st).visited)
    (hgm : ∀ st n, n ∈ st.visited → n ∈ (g st).visited) :
    ∀ st n, n ∈ (g (f st)).refs → n ∈ st.refs ∨ n ∈ (g (f st)).visited := by
  intro st n h
  rcases hg (f st) n h with h1 | h1
  · rcases hf st n h1 with h2 | h2
    · exact Or.inl h2
    · exact Or.inr (hgm (f st) n h2)
  · exact Or.inr h1

/-- A name can only enter the accumulator together with entering the visited
set (or it was already accumulated). -/
theorem collectGo_refs_sub_visited (pool : List (String × Schema)) (fuel : Nat) :
    ∀ t st n, n ∈ (collectGo pool fuel t st).refs →
      n ∈ st.refs ∨ n ∈ (collectGo pool fuel t st).visited := by
  induction fuel with
  | zero => intro t st n h; exact Or.inl h
  | succ fuel ih =>
    intro t
    match t with
    | .many .nil => intro st n h; exact Or.inl h
    | .many (.cons s rest) =>
      exact refsInVisited_comp (fun st => collectGo pool fuel (.one s) st)
        (fun st => collectGo pool fuel (.many rest) st)
        (ih (.one s)) (ih (.many rest))
        (fun st => collectGo_visited_mono pool fuel (.one s) st)
        (fun st => collectGo_visited_mono pool fuel (.many rest) st)
    | .props .nil => intro st n h; exact Or.inl h
    | .props (.cons nm s rest) =>
      exact refsInVisited_comp (fun st => collectGo pool fuel (.one s) st)
        (fun st => collectGo pool fuel (.props rest) st)
        (ih (.one s)) (ih (.props rest))
        (fun st => collectGo_visited_mono pool fuel (.one s) st)
        (fun st => collectGo_visited_mono pool fuel (.props rest) st)
    | .one (.mk ref items props addProps allOf oneOf anyOf) =>
      cases htr : truthyRef ref with
      | some r =>
        intro st n h
        rw [collectGo_one_ref pool fuel items props addProps allOf oneOf anyOf htr st] at h ⊢
        by_cases hv : extractRefName r ∈ st.visited
        · simp only [hv, if_true] at h ⊢
          rcases mem_insertName.mp h with rfl | h2
          · exact Or.inr hv
          · exact Or.inl h2
        · simp only [hv, if_false] at h ⊢
          cases hl : lookupName pool (extractRefName r) with
          | some body =>
            rw [hl] at h
            rcases ih (.one body) _ n h with h1 | h1
            · rcases mem_insertName.mp h1 with rfl | h2
              · exact Or.inr (collectGo_visited_mono pool fuel (.one body) _ _
                  (self_mem_insertName _ _))
              · exact Or.inl h2
            · exact Or.inr h1
          | none =>
            rw [hl] at h
            rcases mem_insertName.mp h with rfl | h2
            · exact Or.inr (self_mem_insertName _ _)
            · exact Or.inl h2
      | none =>
        have hItems : ∀ st n, n ∈ (itemsStep pool fuel items st).refs →
            n ∈ st.refs ∨ n ∈ (itemsStep pool fuel items st).visited := by
          cases items with
          | some it => exact ih (.one it)
          | none => exact fun st n h => Or.inl h
        have hAdd : ∀ st n, n ∈ (addStep pool fuel addProps st).refs →
            n ∈ st.refs ∨ n ∈ (addStep pool fuel addProps st).visited := by
          rcases addProps with _ | b | sc
          · exact fun st n h => Or.inl h
          · exact fun st n h => Or.inl h
          · exact ih (.one sc)
        have c1 := refsInVisited_comp (fun st => itemsStep pool fuel items st)
          (fun st => collectGo pool fuel (.props props) st)
          hItems (ih (.props props))
          (fun st => itemsStep_visited_mono pool fuel items st)
          (fun st => collectGo_visited_mono pool fuel (.props props) st)
        have c2 := refsInVisited_comp
          (fun st => collectGo pool fuel (.props props) (itemsStep pool fuel items st))
          (fun st => addStep pool fuel addProps st)
          c1 hAdd
          (fun st n hn => collectGo_visited_mono pool fuel (.props props) _ n
            (itemsStep_visited_mono pool fuel items st n hn))
          (fun st => addStep_visited_mono pool fuel addProps st)
        have c3 := refsInVisited_comp
          (fun st => addStep pool fuel addProps
            (collectGo pool fuel (.props props) (itemsStep pool fuel items st)))
          (fun st => collectGo pool fuel (.many allOf) st)
          c2 (ih (.many allOf))
          (fun st n hn => addStep_visited_mono pool fuel addProps _ n
            (collectGo_visited_mono pool fuel (.props props) _ n
              (itemsStep_visited_mono pool fuel items st n hn)))
          (fun st => collectGo_visited_mono pool fuel (.many allOf) st)
        have c4 := refsInVisited_comp
          (fun st => collectGo pool fuel (.many allOf) (addStep pool fuel addProps
            (collectGo pool fuel (.props props) (itemsStep pool fuel items st))))
          (fun st => collectGo pool fuel (.many oneOf) st)
          c3 (ih (.many oneOf))
          (fun st n hn => collectGo_visited_mono pool fuel (.many allOf) _ n
            (addStep_visited_mono pool fuel addProps _ n
              (collectGo_visited_mono pool fuel (.props props) _ n
                (itemsStep_visited_mono pool fuel items st n hn))))
          (fun st => collectGo_visited_mono pool fuel (.many oneOf) st)
        have c5 := refsInVisited_comp
          (fun st => collectGo pool fuel (.many oneOf) (collectGo pool fuel (.many allOf)
            (addStep pool fuel addProps
              (collectGo pool fuel (.props props) (itemsStep pool fuel items st)))))
          (fun st => collectGo pool fuel (.many anyOf) st)
          c4 (ih (.many anyOf))
          (fun st n hn => collectGo_visited_mono pool fuel (.many oneOf) _ n
            (collectGo_visited_mono pool fuel (.many allOf) _ n
              (addStep_visited_mono pool fuel addProps _ n
                (collectGo_visited_mono pool fuel (.props props) _ n
                  (itemsStep_visited_mono pool fuel items st n hn)))))
          (fun st => collectGo_visited_mono pool fuel (.many anyOf) st)
        intro st n h
        rw [collectGo_one_structural pool fuel items props addProps allOf oneOf anyOf htr st] at h ⊢
        exact c5 st n h

theorem mul_bound_mono (P : Nat) {a b : Nat} (h : a ≤ b) : P * a ≤ P * b :=
  Nat.mul_le_mul_left _ h

theorem bound_after_jump {M C c2 task s fuel : Nat}
    (hc : c2 < C) (hs : s ≤ M) (h1 : 1 ≤ task) (hf : task + (1 + M) * C ≤ fuel + 1) :
    s + (1 + M) * c2 + 1 ≤ fuel := by
  have h2 : (1 + M) * (c2 + 1) ≤ (1 + M) * C := mul_bound_mono _ hc
  have h3 : (1 + M) * (c2 + 1) = (1 + M) * c2 + (1 + M) := Nat.mul_succ _ _
  omega

theorem expands_comp {pool : List (String × Schema)} (a b c : CState)
    (hf : ∀ k, k ∈ b.visited → k ∉ a.visited → ∀ s, lookupName pool k = some s →
      ∀ n ∈ schemaDirectRefs s, n ∈ b.refs)
    (hg : ∀ k, k ∈ c.visited → k ∉ b.visited → ∀ s, lookupName pool k = some s →
      ∀ n ∈ schemaDirectRefs s, n ∈ c.refs)
    (hbc : ∀ n ∈ b.refs, n ∈ c.refs) :
    ∀ k, k ∈ c.visited → k ∉ a.visited → ∀ s, lookupName pool k = some s →
      ∀ n ∈ schemaDirectRefs s, n ∈ c.refs := by
  intro k hk hka s hs n hn
  by_cases hb : k ∈ b.visited
  · exact hbc n (hf k hb hka s hs n hn)
  · exact hg k hk hb s hs n hn

/-- Every pool key newly added to `visited` was expanded: the direct
reference names of its pool body end up in the accumulator (given enough
fuel). -/
theorem collectGo_expands (pool : List (String × Schema)) (fuel : Nat) :
    ∀ t st, collectBound pool t st.visited ≤ fuel →
      ∀ k, k ∈ (collectGo pool fuel t st).visited → k ∉ st.visited →
        ∀ b, lookupName pool k = some b →
          ∀ n ∈ schemaDirectRefs b, n ∈ (collectGo pool fuel t st).refs := by
  induction fuel with
  | zero =>
    intro t st hsz
    have h1 := taskSize_pos t
    simp only [collectBound] at hsz
    omega
  | succ fuel ih =>
    intro t st hsz
    match t with
    | .many .nil =>
      intro k hk hks
      exact absurd hk hks
    | .many (.cons s rest) =>
      simp only [collectBound, taskSize] at hsz
      unfold listSize at hsz
      have hCnt := @countUnvisited_anti pool st.visited
        (collectGo pool fuel (.one s) st).visited
        (fun x hx => collectGo_visited_mono pool fuel (.one s) st x hx)
      have hb1 : collectBound pool (.one s) st.visited ≤ fuel := by
        simp only [collectBound, taskSize]
        have := listSize_pos rest
        omega
      have hb2 : collectBound pool (.many rest)
          (collectGo pool fuel (.one s) st).visited ≤ fuel := by
        simp only [collectBound, taskSize]
        have hm := mul_bound_mono (1 + maxPoolSize pool) hCnt
        have := schemaSize_pos s
        omega
      show ∀ k, k ∈ (collectGo pool fuel (.many rest)
          (collectGo pool fuel (.one s) st)).visited → _
      exact expands_comp st (collectGo pool fuel (.one s) st) _
        (ih (.one s) st hb1) (ih (.many rest) _ hb2)
        (collectGo_refs_mono pool fuel (.many rest) _)
    | .props .nil =>
      intro k hk hks
      exact absurd hk hks
    | .props (.cons nm s rest) =>
      simp only [collectBound, taskSize] at hsz
      unfold propsSize at hsz
      have hCnt := @countUnvisited_anti pool st.visited
        (collectGo pool fuel (.one s) st).visited
        (fun x hx => collectGo_visited_mono pool fuel (.one s) st x hx)
      have hb1 : collectBound pool (.one s) st.visited ≤ fuel := by
        simp only [collectBound, taskSize]
        have := propsSize_pos rest
        omega
      have hb2 : collectBound pool (.props rest)
          (collectGo pool fuel (.one s) st).visited ≤ fuel := by
        simp only [collectBound, taskSize]
        have hm := mul_bound_mono (1 + maxPoolSize pool) hCnt
        have := schemaSize_pos s
        omega
      show ∀ k, k ∈ (collectGo pool fuel (.props rest)
          (collectGo pool fuel (.one s) st)).visited → _
      exact expands_comp st (collectGo pool fuel (.one s) st) _
        (ih (.one s) st hb1) (ih (.props rest) _ hb2)
        (collectGo_refs_mono pool fuel (.props rest) _)
    | .one (.mk ref items props addProps allOf oneOf anyOf) =>
      cases htr : truthyRef ref with
      | some r =>
        intro k hk hks b hlk n hn
        rw [collectGo_one_ref pool fuel items props addProps allOf oneOf anyOf htr st] at hk ⊢
        by_cases hv : extractRefName r ∈ st.visited
        · simp only [hv, if_true] at hk ⊢
          exact absurd hk hks
        · simp only [hv, if_false] at hk ⊢
          cases hl : lookupName pool (extractRefName r) with
          | some body =>
            rw [hl] at hk
            have hC1 : 1 ≤ countUnvisited pool st.visited := by
              have := countUnvisited_insert_lt hl hv
              omega
            have hsz' : taskSize (.one (.mk ref items props addProps allOf oneOf anyOf))
                + (1 + maxPoolSize pool) * countUnvisited pool st.visited ≤ fuel + 1 := by
              simpa [collectBound] using hsz
            have hbbody : collectBound pool (.one body)
                (insertName (extractRefName r) st.visited) ≤ fuel := by
              simp only [collectBound, taskSize]
              have := bound_after_jump (countUnvisited_insert_lt hl hv)
                (schemaSize_le_maxPoolSize hl)
                (taskSize_pos (.one (.mk ref items props addProps allOf oneOf anyOf))) hsz'
              omega
            by_cases hkr : k = extractRefName r
            · subst hkr
              rw [hl] at hlk
              cases hlk
              have hfb : taskSize (.one b) ≤ fuel := by
                simp only [taskSize]
                have h1 := schemaSize_le_maxPoolSize hl
                have h2 := bound_after_jump (countUnvisited_insert_lt hl hv)
                  (schemaSize_le_maxPoolSize hl)
                  (taskSize_pos (.one (.mk ref items props addProps allOf oneOf anyOf))) hsz'
                omega
              exact collectGo_direct pool fuel (.one b) _ hfb n hn
            · have hks2 : k ∉ insertName (extractRefName r) st.visited := by
                intro hmem
                rcases mem_insertName.mp hmem with h | h
                · exact hkr h
                · exact hks h
              exact ih (.one body) _ hbbody k hk hks2 b hlk n hn
          | none =>
            rw [hl] at hk
            rcases mem_insertName.mp hk with rfl | h
            · rw [hlk] at hl
              cases hl
            · exact absurd h hks
      | none =>
        intro k hk hks b hlk n hn
        rw [collectGo_one_structural pool fuel items props addProps allOf oneOf anyOf htr st] at hk ⊢
        simp only [collectBound, taskSize] at hsz
        rw [schemaSize_mk] at hsz
        have hpP := propsSize_pos props
        have hp1 := listSize_pos allOf
        have hp2 := listSize_pos oneOf
        have hp3 := listSize_pos anyOf
        -- chain states
        have hcnt1 := @countUnvisited_anti pool st.visited
          (itemsStep pool fuel items st).visited
          (fun x hx => itemsStep_visited_mono pool fuel items st x hx)
        have hcnt2 := le_trans (@countUnvisited_anti pool
          (itemsStep pool fuel items st).visited
          (collectGo pool fuel (.props props) (itemsStep pool fuel items st)).visited
          (fun x hx => collectGo_visited_mono pool fuel (.props props) _ x hx)) hcnt1
        have hcnt3 := le_trans (@countUnvisited_anti pool
          (collectGo pool fuel (.props props) (itemsStep pool fuel items st)).visited
          (addStep pool fuel addProps
            (collectGo pool fuel (.props props) (itemsStep pool fuel items st))).visited
          (fun x hx => addStep_visited_mono pool fuel addProps _ x hx)) hcnt2
        have hcnt4 := le_trans (@countUnvisited_anti pool
          (addStep pool fuel addProps
            (collectGo pool fuel (.props props) (itemsStep pool fuel items st))).visited
          (collectGo pool fuel (.many allOf) (addStep pool fuel addProps
            (collectGo pool fuel (.props props) (itemsStep pool fuel items st)))).visited
          (fun x hx => collectGo_visited_mono pool fuel (.many allOf) _ x hx)) hcnt3
        have hcnt5 := le_trans (@countUnvisited_anti pool
          (collectGo pool fuel (.many allOf) (addStep pool fuel addProps
            (collectGo pool fuel (.props props) (itemsStep pool fuel items st)))).visited
          (collectGo pool fuel (.many oneOf) (collectGo pool fuel (.many allOf)
            (addStep pool fuel addProps (collectGo pool fuel (.props props)
              (itemsStep pool fuel items st))))).visited
          (fun x hx => collectGo_visited_mono pool fuel (.many oneOf) _ x hx)) hcnt4
        have hmul1 := mul_bound_mono (1 + maxPoolSize pool) hcnt1
        have hmul2 := mul_bound_mono (1 + maxPoolSize pool) hcnt2
        have hmul3 := mul_bound_mono (1 + maxPoolSize pool) hcnt3
        have hmul4 := mul_bound_mono (1 + maxPoolSize pool) hcnt4
        have hmul5 := mul_bound_mono (1 + maxPoolSize pool) hcnt5
        have e1 : ∀ kk, kk ∈ (itemsStep pool fuel items st).visited → kk ∉ st.visited →
            ∀ ss, lookupName pool kk = some ss →
              ∀ nn ∈ schemaDirectRefs ss, nn ∈ (itemsStep pool fuel items st).refs := by
          cases items with
          | some it =>
            apply ih (.one it) st
            simp only [collectBound, taskSize]
            simp only [itemsSize] at hsz
            omega
          | none => intro kk h1 h2; exact absurd h1 h2
        have e2 := ih (.props props) (itemsStep pool fuel items st) (by
          simp only [collectBound, taskSize]
          omega)
        have e3 : ∀ kk, kk ∈ (addStep pool fuel addProps
              (collectGo pool fuel (.props props) (itemsStep pool fuel items st))).visited →
            kk ∉ (collectGo pool fuel (.props props) (itemsStep pool fuel items st)).visited →
            ∀ ss, lookupName pool kk = some ss →
              ∀ nn ∈ schemaDirectRefs ss, nn ∈ (addStep pool fuel addProps
                (collectGo pool fuel (.props props) (itemsStep pool fuel items st))).refs := by
          rcases addProps with _ | bb | sc
          · intro kk h1 h2; exact absurd h1 h2
          · intro kk h1 h2; exact absurd h1 h2
          · apply ih (.one sc) _
            simp only [collectBound, taskSize]
            simp only [addSize] at hsz
            omega
        have e4 := ih (.many allOf) (addStep pool fuel addProps
          (collectGo pool fuel (.props props) (itemsStep pool fuel items st))) (by
          simp only [collectBound, taskSize]
          omega)
        have e5 := ih (.many oneOf) (collectGo pool fuel (.many allOf)
          (addStep pool fuel addProps
            (collectGo pool fuel (.props props) (itemsStep pool fuel items st)))) (by
          simp only [collectBound, taskSize]
          omega)
        have e6 := ih (.many anyOf) (collectGo pool fuel (.many oneOf)
          (collectGo pool fuel (.many allOf) (addStep pool fuel addProps
            (collectGo pool fuel (.props props) (itemsStep pool fuel items st))))) (by
          simp only [collectBound, taskSize]
          omega)
        have c12 := expands_comp st _ _ e1 e2
          (collectGo_refs_mono pool fuel (.props props) _)
        have c13 := expands_comp st _ _ c12 e3
          (addStep_refs_mono pool fuel addProps _)
        have c14 := expands_comp st _ _ c13 e4
          (collectGo_refs_mono pool fuel (.many allOf) _)
        have c15 := expands_comp st _ _ c14 e5
          (collectGo_refs_mono pool fuel (.many oneOf) _)
        have c16 := expands_comp st _ _ c15 e6
          (collectGo_refs_mono pool fuel (.many anyOf) _)
        exact c16 k hk hks b hlk n hn

/-- Fuel stability: any two fuel values at least `collectBound` give the
same result — the fuel is an artifact of the embedding, and the recursion
terminates because each pool name is expanded at most once per call. -/
theorem collectGo_stable (pool : List (String × Schema)) :
    ∀ f g t st, collectBound pool t st.visited ≤ f →
      collectBound pool t st.visited ≤ g →
      collectGo pool f t st = collectGo pool g t st := by
  intro f
  induction f with
  | zero =>
    intro g t st hf hg
    have h1 := taskSize_pos t
    simp only [collectBound] at hf
    omega
  | succ f ih =>
    intro g t st hf hg
    have h1 := taskSize_pos t
    cases g with
    | zero => simp only [collectBound] at hg; omega
    | succ g =>
      match t with
      | .many .nil => rfl
      | .many (.cons s rest) =>
        simp only [collectBound, taskSize] at hf hg
        unfold listSize at hf hg
        have hps := schemaSize_pos s
        have hpr := listSize_pos rest
        have hs1 : collectGo pool f (.one s) st = collectGo pool g (.one s) st := by
          apply ih
          · simp only [collectBound, taskSize]; omega
          · simp only [collectBound, taskSize]; omega
        show collectGo pool f (.many rest) (collectGo pool f (.one s) st) =
          collectGo pool g (.many rest) (collectGo pool g (.one s) st)
        rw [hs1]
        have hcnt := @countUnvisited_anti pool st.visited
          (collectGo pool g (.one s) st).visited
          (fun x hx => collectGo_visited_mono pool g (.one s) st x hx)
        have hmul := mul_bound_mono (1 + maxPoolSize pool) hcnt
        apply ih
        · simp only [collectBound, taskSize]; omega
        · simp only [collectBound, taskSize]; omega
      | .props .nil => rfl
      | .props (.cons nm s rest) =>
        simp only [collectBound, taskSize] at hf hg
        unfold propsSize at hf hg
        have hps := schemaSize_pos s
        have hpr := propsSize_pos rest
        have hs1 : collectGo pool f (.one s) st = collectGo pool g (.one s) st := by
          apply ih
          · simp only [collectBound, taskSize]; omega
          · simp only [collectBound, taskSize]; omega
        show collectGo pool f (.props rest) (collectGo pool f (.one s) st) =
          collectGo pool g (.props rest) (collectGo pool g (.one s) st)
        rw [hs1]
        have hcnt := @countUnvisited_anti pool st.visited
          (collectGo pool g (.one s) st).visited
          (fun x hx => collectGo_visited_mono pool g (.one s) st x hx)
        have hmul := mul_bound_mono (1 + maxPoolSize pool) hcnt
        apply ih
        · simp only [collectBound, taskSize]; omega
        · simp only [collectBound, taskSize]; omega
      | .one (.mk ref items props addProps allOf oneOf anyOf) =>
        cases htr : truthyRef ref with
        | some r =>
          rw [collectGo_one_ref pool f items props addProps allOf oneOf anyOf htr st]
          rw [collectGo_one_ref pool g items props addProps allOf oneOf anyOf htr st]
          by_cases hv : extractRefName r ∈ st.visited
          · simp [hv]
          · simp only [hv, if_false]
            cases hl : lookupName pool (extractRefName r) with
            | some body =>
              apply ih
              · simp only [collectBound, taskSize]
                have := bound_after_jump (countUnvisited_insert_lt hl hv)
                  (schemaSize_le_maxPoolSize hl) h1 (by
                    simpa [collectBound] using hf)
                omega
              · simp only [collectBound, taskSize]
                have := bound_after_jump (countUnvisited_insert_lt hl hv)
                  (schemaSize_le_maxPoolSize hl) h1 (by
                    simpa [collectBound] using hg)
                omega
            | none => rfl
        | none =>
          rw [collectGo_one_structural pool f items props addProps allOf oneOf anyOf htr st]
          rw [collectGo_one_structural pool g items props addProps allOf oneOf anyOf htr st]
          simp only [collectBound, taskSize] at hf hg
          rw [schemaSize_mk] at hf hg
          have hpP := propsSize_pos props
          have hp1 := listSize_pos allOf
          have hp2 := listSize_pos oneOf
          have hp3 := listSize_pos anyOf
          have hItems : itemsStep pool f items st = itemsStep pool g items st := by
            cases items with
            | some it =>
              show collectGo pool f (.one it) st = collectGo pool g (.one it) st
              simp only [itemsSize] at hf hg
              apply ih
              · simp only [collectBound, taskSize]; omega
              · simp only [collectBound, taskSize]; omega
            | none => rfl
          rw [hItems]
          have hcnt1 := @countUnvisited_anti pool st.visited
            (itemsStep pool g items st).visited
            (fun x hx => itemsStep_visited_mono pool g items st x hx)
          have hmul1 := mul_bound_mono (1 + maxPoolSize pool) hcnt1
          have hProps : collectGo pool f (.props props) (itemsStep pool g items st) =
              collectGo pool g (.props props) (itemsStep pool g items st) := by
            apply ih
            · simp only [collectBound, taskSize]; omega
            · simp only [collectBound, taskSize]; omega
          rw [hProps]
          have hcnt2 := le_trans (@countUnvisited_anti pool
            (itemsStep pool g items st).visited
            (collectGo pool g (.props props) (itemsStep pool g items st)).visited
            (fun x hx => collectGo_visited_mono pool g (.props props) _ x hx)) hcnt1
          have hmul2 := mul_bound_mono (1 + maxPoolSize pool) hcnt2
          have hAdd : addStep pool f addProps
              (collectGo pool g (.props props) (itemsStep pool g items st)) =
              addStep pool g addProps
              (collectGo pool g (.props props) (itemsStep pool g items st)) := by
            rcases addProps with _ | bb | sc
            · rfl
            · rfl
            · show collectGo pool f (.one sc) _ = collectGo pool g (.one sc) _
              simp only [addSize] at hf hg
              apply ih
              · simp only [collectBound, taskSize]; omega
              · simp only [collectBound, taskSize]; omega
          rw [hAdd]
          have hcnt3 := le_trans (@countUnvisited_anti pool
            (collectGo pool g (.props props) (itemsStep pool g items st)).visited
            (addStep pool g addProps
              (collectGo pool g (.props props) (itemsStep pool g items st))).visited
            (fun x hx => addStep_visited_mono pool g addProps _ x hx)) hcnt2
          have hmul3 := mul_bound_mono (1 + maxPoolSize pool) hcnt3
          have hAll : collectGo pool f (.many allOf) (addStep pool g addProps
              (collectGo pool g (.props props) (itemsStep pool g items st))) =
              collectGo pool g (.many allOf) (addStep pool g addProps
              (collectGo pool g (.props props) (itemsStep pool g items st))) := by
            apply ih
            · simp only [collectBound, taskSize]; omega
            · simp only [collectBound, taskSize]; omega
          rw [hAll]
          have hcnt4 := le_trans (@countUnvisited_anti pool
            (addStep pool g addProps
              (collectGo pool g (.props props) (itemsStep pool g items st))).visited
            (collectGo pool g (.many allOf) (addStep pool g addProps
              (collectGo pool g (.props props) (itemsStep pool g items st)))).visited
            (fun x hx => collectGo_visited_mono pool g (.many allOf) _ x hx)) hcnt3
          have hmul4 := mul_bound_mono (1 + maxPoolSize pool) hcnt4
          have hOne : collectGo pool f (.many oneOf) (collectGo pool g (.many allOf)
              (addStep pool g addProps (collectGo pool g (.props props)
                (itemsStep pool g items st)))) =
              collectGo pool g (.many oneOf) (collectGo pool g (.many allOf)
              (addStep pool g addProps (collectGo pool g (.props props)
                (itemsStep pool g items st)))) := by
            apply ih
            · simp only [collectBound, taskSize]; omega
            · simp only [collectBound, taskSize]; omega
          rw [hOne]
          have hcnt5 := le_trans (@countUnvisited_anti pool
            (collectGo pool g (.many allOf) (addStep pool g addProps
              (collectGo pool g (.props props) (itemsStep pool g items st)))).visited
            (collectGo pool g (.many oneOf) (collectGo pool g (.many allOf)
              (addStep pool g addProps (collectGo pool g (.props props)
                (itemsStep pool g items st))))).visited
            (fun x hx => collectGo_visited_mono pool g (.many oneOf) _ x hx)) hcnt4
          have hmul5 := mul_bound_mono (1 + maxPoolSize pool) hcnt5
          apply ih
          · simp only [collectBound, taskSize]; omega
          · simp only [collectBound, taskSize]; omega

/-- A pool whose bindings are a subset of another pool's. -/
def SubPool (pool' pool : List (String × Schema)) : Prop :=
  ∀ k b, lookupName pool' k = some b → lookupName pool k = some b

/-- A name set closed under the direct references of the pool bodies of its
members. -/
def PoolClosed (U : List String) (pool : List (String × Schema)) : Prop :=
  ∀ k ∈ U, ∀ b, lookupName pool k = some b → ∀ n ∈ schemaDirectRefs b, n ∈ U

/-- Collection against any sub-pool stays inside a directly-closed name set
that contains the start schema's direct references and the incoming
accumulator. -/
theorem collectGo_closed_sound (U : List String) (pool pool' : List (String × Schema))
    (hsub : SubPool pool' pool) (hcl : PoolClosed U pool) (fuel : Nat) :
    ∀ t st, (∀ n ∈ taskDirectRefs t, n ∈ U) → (∀ n ∈ st.refs, n ∈ U) →
      ∀ n ∈ (collectGo pool' fuel t st).refs, n ∈ U := by
  induction fuel with
  | zero => intro t st _ hst n hn; exact hst n hn
  | succ fuel ih =>
    intro t st hdir hst
    match t with
    | .many .nil => exact hst
    | .many (.cons s rest) =>
      simp only [taskDirectRefs] at hdir
      unfold listDirectRefs at hdir
      have hd1 : ∀ n ∈ schemaDirectRefs s, n ∈ U := fun n h =>
        hdir n (List.mem_append.mpr (Or.inl h))
      have hd2 : ∀ n ∈ listDirectRefs rest, n ∈ U := fun n h =>
        hdir n (List.mem_append.mpr (Or.inr h))
      have h1 := ih (.one s) st hd1 hst
      exact ih (.many rest) _ hd2 h1
    | .props .nil => exact hst
    | .props (.cons nm s rest) =>
      simp only [taskDirectRefs] at hdir
      unfold propsDirectRefs at hdir
      have hd1 : ∀ n ∈ schemaDirectRefs s, n ∈ U := fun n h =>
        hdir n (List.mem_append.mpr (Or.inl h))
      have hd2 : ∀ n ∈ propsDirectRefs rest, n ∈ U := fun n h =>
        hdir n (List.mem_append.mpr (Or.inr h))
      have h1 := ih (.one s) st hd1 hst
      exact ih (.props rest) _ hd2 h1
    | .one (.mk ref items props addProps allOf oneOf anyOf) =>
      simp only [taskDirectRefs] at hdir
      cases htr : truthyRef ref with
      | some r =>
        rw [schemaDirectRefs_mk_ref items props addProps allOf oneOf anyOf htr] at hdir
        have hname : extractRefName r ∈ U := hdir _ (List.mem_singleton.mpr rfl)
        intro n hn
        rw [collectGo_one_ref pool' fuel items props addProps allOf oneOf anyOf htr st] at hn
        have hins : ∀ m ∈ insertName (extractRefName r) st.refs, m ∈ U := by
          intro m hm
          rcases mem_insertName.mp hm with rfl | hm2
          · exact hname
          · exact hst m hm2
        by_cases hv : extractRefName r ∈ st.visited
        · simp only [hv, if_true] at hn
          exact hins n hn
        · simp only [hv, if_false] at hn
          cases hl : lookupName pool' (extractRefName r) with
          | some body =>
            rw [hl] at hn
            have hbody : ∀ m ∈ schemaDirectRefs body, m ∈ U :=
              hcl _ hname body (hsub _ body hl)
            exact ih (.one body) _ hbody hins n hn
          | none =>
            rw [hl] at hn
            exact hins n hn
      | none =>
        rw [schemaDirectRefs_mk_structural items props addProps allOf oneOf anyOf htr] at hdir
        intro n hn
        rw [collectGo_one_structural pool' fuel items props addProps allOf oneOf anyOf htr st] at hn
        simp only [List.mem_append] at hdir
        have hdI : ∀ m ∈ itemsDirect items, m ∈ U := fun m h => hdir m (by tauto)
        have hdP : ∀ m ∈ propsDirectRefs props, m ∈ U := fun m h => hdir m (by tauto)
        have hdA : ∀ m ∈ addDirect addProps, m ∈ U := fun m h => hdir m (by tauto)
        have hdAll : ∀ m ∈ listDirectRefs allOf, m ∈ U := fun m h => hdir m (by tauto)
        have hdOne : ∀ m ∈ listDirectRefs oneOf, m ∈ U := fun m h => hdir m (by tauto)
        have hdAny : ∀ m ∈ listDirectRefs anyOf, m ∈ U := fun m h => hdir m (by tauto)
        have h1 : ∀ m ∈ (itemsStep pool' fuel items st).refs, m ∈ U := by
          cases items with
          | some it => exact ih (.one it) st (by simpa [itemsDirect] using hdI) hst
          | none => exact hst
        have h2 := ih (.props props) _ hdP h1
        have h3 : ∀ m ∈ (addStep pool' fuel addProps
            (collectGo pool' fuel (.props props) (itemsStep pool' fuel items st))).refs,
            m ∈ U := by
          rcases addProps with _ | bb | sc
          · exact h2
          · exact h2
          · exact ih (.one sc) _ (by simpa [addDirect] using hdA) h2
        have h4 := ih (.many allOf) _ hdAll h3
        have h5 := ih (.many oneOf) _ hdOne h4
        exact ih (.many anyOf) _ hdAny h5 n hn

/-! ### Accumulation structure of the liveness folds -/

theorem collectSchemaRefs_mono (pool : List (String × Schema)) (s : Schema)
    (R : List String) : ∀ n ∈ R, n ∈ collectSchemaRefs pool s R :=
  fun n h => collectGo_refs_mono pool (topFuel pool s) (.one s) ⟨R, []⟩ n h

theorem collectSchemaRefs_frame (pool : List (String × Schema)) (s : Schema)
    (R : List String) (n : String) :
    n ∈ collectSchemaRefs pool s R ↔ n ∈ R ∨ n ∈ collectSchemaRefs pool s [] :=
  (collectGo_frame pool (topFuel pool s) (.one s)).2 [] R n

/-- A set transformer that only adds a contribution independent of its
input. -/
def AccumFn (f : List String → List String) : Prop :=
  ∀ R n, n ∈ f R ↔ n ∈ R ∨ n ∈ f []

theorem AccumFn.mono {f : List String → List String} (hf : AccumFn f) :
    ∀ R n, n ∈ R → n ∈ f R := fun R n h => (hf R n).mpr (Or.inl h)

theorem accumFn_id : AccumFn (fun R => R) := by
  intro R n
  simp

theorem accumFn_comp {f g : List String → List String} (hf : AccumFn f)
    (hg : AccumFn g) : AccumFn (fun R => g (f R)) := by
  intro R n
  rw [hg (f R) n, hf R n, hg (f []) n]
  tauto

theorem accumFn_collectSchemaRefs (pool : List (String × Schema)) (s : Schema) :
    AccumFn (fun R => collectSchemaRefs pool s R) :=
  fun R n => collectSchemaRefs_frame pool s R n

theorem accumFn_foldl {α : Type} (step : List String → α → List String)
    (hstep : ∀ a, AccumFn (fun R => step R a)) (l : List α) :
    AccumFn (fun R => l.foldl step R) := by
  induction l with
  | nil => exact accumFn_id
  | cons a l ih =>
    have := accumFn_comp (hstep a) ih
    intro R n
    simpa using this R n

/-- A name contributed by one element of a fold ends up in the fold's
result. -/
theorem foldl_contrib {α : Type} (step : List String → α → List String)
    (hstep : ∀ a, AccumFn (fun R => step R a)) (l : List α) (a : α) (ha : a ∈ l)
    (R : List String) {n : String} (hn : n ∈ step [] a) : n ∈ l.foldl step R := by
  induction l generalizing R with
  | nil => simp at ha
  | cons b l ih =>
    simp only [List.foldl_cons]
    rcases List.mem_cons.mp ha with rfl | ha2
    · exact (accumFn_foldl step hstep l).mono _ n ((hstep a R n).mpr (Or.inr hn))
    · exact ih ha2 (step R b)

theorem accumFn_paramListRefs (pool : List (String × Schema)) (ps : List Parameter) :
    AccumFn (fun R => paramListRefs pool ps R) := by
  apply accumFn_foldl
  intro p
  cases hp : p.schema with
  | some s => simpa [hp] using accumFn_collectSchemaRefs pool s
  | none => simpa [hp] using accumFn_id

theorem accumFn_optParamsRefs (pool : List (String × Schema))
    (params : Option (List Parameter)) : AccumFn (fun R => optParamsRefs pool params R) := by
  cases params with
  | some ps => exact accumFn_paramListRefs pool ps
  | none => exact accumFn_id

theorem accumFn_contentRefs (pool : List (String × Schema))
    (cs : List (String × MediaObject)) : AccumFn (fun R => contentRefs pool cs R) := by
  apply accumFn_foldl
  intro cc
  cases hc : cc.2.schema with
  | some s => simpa [hc] using accumFn_collectSchemaRefs pool s
  | none => simpa [hc] using accumFn_id

theorem accumFn_responsesFold (pool : List (String × Schema))
    (rs : List (String × Response)) :
    AccumFn (fun R => rs.foldl (fun r resp => match resp.2.content with
      | some cs => contentRefs pool cs r
      | none => r) R) := by
  apply accumFn_foldl
  intro resp
  cases hc : resp.2.content with
  | some cs => simpa [hc] using accumFn_contentRefs pool cs
  | none => simpa [hc] using accumFn_id

theorem accumFn_collectRefs (pool : List (String × Schema)) (op : Operation) :
    AccumFn (fun R => collectRefs pool op R) := by
  have h1 := accumFn_optParamsRefs pool op.parameters
  have h2 : AccumFn (fun R => match op.requestBody with
      | some rb => contentRefs pool rb.content R
      | none => R) := by
    cases hr : op.requestBody with
    | some rb => simpa using accumFn_contentRefs pool rb.content
    | none => simpa using accumFn_id
  have h3 := accumFn_responsesFold pool op.responses
  have := accumFn_comp (accumFn_comp h1 h2) h3
  intro R n
  simpa [collectRefs] using this R n

theorem accumFn_methodsRefs (pool : List (String × Schema)) (item : PathItem) :
    AccumFn (fun R => methodsRefs pool item R) := by
  apply accumFn_foldl
  intro m
  cases hm : item.getM m with
  | some op => simpa [hm] using accumFn_collectRefs pool op
  | none => simpa [hm] using accumFn_id

theorem accumFn_pathsRefs (pool : List (String × Schema))
    (paths : List (String × PathItem)) : AccumFn (fun R => pathsRefs pool paths R) := by
  apply accumFn_foldl
  intro pi
  exact accumFn_comp (accumFn_optParamsRefs pool pi.2.parameters)
    (accumFn_methodsRefs pool pi.2)

theorem accumFn_compParamsRefs (pool : List (String × Schema))
    (ps : Option (List (String × Parameter))) :
    AccumFn (fun R => compParamsRefs pool ps R) := by
  cases ps with
  | some pl =>
    apply accumFn_foldl
    intro p
    cases hp : p.2.schema with
    | some s => simpa [hp] using accumFn_collectSchemaRefs pool s
    | none => simpa [hp] using accumFn_id
  | none => exact accumFn_id

theorem accumFn_compRequestBodiesRefs (pool : List (String × Schema))
    (rbs : Option (List (String × RequestBody))) :
    AccumFn (fun R => compRequestBodiesRefs pool rbs R) := by
  cases rbs with
  | some rl =>
    apply accumFn_foldl
    intro rb
    exact accumFn_contentRefs pool rb.2.content
  | none => exact accumFn_id

theorem accumFn_compResponsesRefs (pool : List (String × Schema))
    (rs : Option (List (String × Response))) :
    AccumFn (fun R => compResponsesRefs pool rs R) := by
  cases rs with
  | some rl =>
    apply accumFn_foldl
    intro resp
    cases hc : resp.2.content with
    | some cs => simpa [hc] using accumFn_contentRefs pool cs
    | none => simpa [hc] using accumFn_id
  | none => exact accumFn_id

theorem mem_methodsOrder (m : Method) : m ∈ methodsOrder := by
  cases m <;> simp [methodsOrder]

/-- A reference collected from a scanned operation is in the liveness set. -/
theorem mem_getAllUsedRefs_of_op {d : OpenAPIDocument} {p : String} {item : PathItem}
    {m : Method} {op : Operation} {n : String}
    (hp : (p, item) ∈ d.paths) (hm : item.getM m = some op)
    (hn : n ∈ collectRefs (schemasOf d) op []) : n ∈ getAllUsedRefs d := by
  have hmem1 : ∀ R, n ∈ methodsRefs (schemasOf d) item R := by
    intro R
    apply foldl_contrib _ _ methodsOrder m (mem_methodsOrder m) R
    · simp only [hm]
      exact hn
    · intro m'
      cases hm' : item.getM m' with
      | some op' => simpa [hm'] using accumFn_collectRefs (schemasOf d) op'
      | none => simpa [hm'] using accumFn_id
  have hmem2 : ∀ R, n ∈ pathsRefs (schemasOf d) d.paths R := by
    intro R
    apply foldl_contrib _ _ d.paths (p, item) hp R
    · exact hmem1 _
    · intro pi
      exact accumFn_comp (accumFn_optParamsRefs (schemasOf d) pi.2.parameters)
        (accumFn_methodsRefs (schemasOf d) pi.2)
  simp only [getAllUsedRefs]
  cases d.components with
  | none => exact hmem2 []
  | some c =>
    exact (accumFn_compResponsesRefs _ c.responses).mono _ n
      ((accumFn_compRequestBodiesRefs _ c.requestBodies).mono _ n
        ((accumFn_compParamsRefs _ c.parameters).mono _ n (hmem2 [])))

/-- A reference collected from a path-level parameter schema is in the
liveness set. -/
theorem mem_getAllUsedRefs_of_pathParam {d : OpenAPIDocument} {p : String}
    {item : PathItem} {ps : List Parameter} {par : Parameter} {s : Schema} {n : String}
    (hp : (p, item) ∈ d.paths) (hps : item.parameters = some ps) (hpar : par ∈ ps)
    (hs : par.schema = some s)
    (hn : n ∈ collectSchemaRefs (schemasOf d) s []) : n ∈ getAllUsedRefs d := by
  have hmem0 : ∀ R, n ∈ paramListRefs (schemasOf d) ps R := by
    intro R
    apply foldl_contrib _ _ ps par hpar R
    · simp only [hs]
      exact hn
    · intro par'
      cases hs' : par'.schema with
      | some s' => simpa [hs'] using accumFn_collectSchemaRefs (schemasOf d) s'
      | none => simpa [hs'] using accumFn_id
  have hmem2 : ∀ R, n ∈ pathsRefs (schemasOf d) d.paths R := by
    intro R
    apply foldl_contrib _ _ d.paths (p, item) hp R
    · show n ∈ methodsRefs (schemasOf d) item (optParamsRefs (schemasOf d) item.parameters [])
      apply (accumFn_methodsRefs (schemasOf d) item).mono _ n
      rw [hps]
      exact hmem0 []
    · intro pi
      exact accumFn_comp (accumFn_optParamsRefs (schemasOf d) pi.2.parameters)
        (accumFn_methodsRefs (schemasOf d) pi.2)
  simp only [getAllUsedRefs]
  cases d.components with
  | none => exact hmem2 []
  | some c =>
    exact (accumFn_compResponsesRefs _ c.responses).mono _ n
      ((accumFn_compRequestBodiesRefs _ c.requestBodies).mono _ n
        ((accumFn_compParamsRefs _ c.parameters).mono _ n (hmem2 [])))

/-- A reference collected from a reusable-parameter pool entry is in the
liveness set. -/
theorem mem_getAllUsedRefs_of_compParam {d : OpenAPIDocument} {c : Components}
    {pl : List (String × Parameter)} {pn : String} {par : Parameter} {s : Schema}
    {n : String} (hc : d.components = some c) (hpl : c.parameters = some pl)
    (hpar : (pn, par) ∈ pl) (hs : par.schema = some s)
    (hn : n ∈ collectSchemaRefs (schemasOf d) s []) : n ∈ getAllUsedRefs d := by
  simp only [getAllUsedRefs, hc]
  apply (accumFn_compResponsesRefs _ c.responses).mono _ n
  apply (accumFn_compRequestBodiesRefs _ c.requestBodies).mono _ n
  show n ∈ compParamsRefs (schemasOf d) c.parameters _
  rw [hpl]
  apply foldl_contrib _ _ pl (pn, par) hpar
  · simp only [hs]
    exact hn
  · intro p'
    cases hs' : p'.2.schema with
    | some s' => simpa [hs'] using accumFn_collectSchemaRefs (schemasOf d) s'
    | none => simpa [hs'] using accumFn_id

/-- A reference collected from a reusable request body is in the liveness
set. -/
theorem mem_getAllUsedRefs_of_compRequestBody {d : OpenAPIDocument} {c : Components}
    {rl : List (String × RequestBody)} {rn : String} {rb : RequestBody} {n : String}
    (hc : d.components = some c) (hrl : c.requestBodies = some rl)
    (hrb : (rn, rb) ∈ rl)
    (hn : n ∈ contentRefs (schemasOf d) rb.content []) : n ∈ getAllUsedRefs d := by
  simp only [getAllUsedRefs, hc]
  apply (accumFn_compResponsesRefs _ c.responses).mono _ n
  show n ∈ compRequestBodiesRefs (schemasOf d) c.requestBodies _
  rw [hrl]
  apply foldl_contrib _ _ rl (rn, rb) hrb
  · exact hn
  · intro rb'
    exact accumFn_contentRefs (schemasOf d) rb'.2.content

/-- A reference collected from a reusable response is in the liveness set. -/
theorem mem_getAllUsedRefs_of_compResponse {d : OpenAPIDocument} {c : Components}
    {rl : List (String × Response)} {rn : String} {resp : Response}
    {cs : List (String × MediaObject)} {n : String}
    (hc : d.components = some c) (hrl : c.responses = some rl)
    (hresp : (rn, resp) ∈ rl) (hcs : resp.content = some cs)
    (hn : n ∈ contentRefs (schemasOf d) cs []) : n ∈ getAllUsedRefs d := by
  simp only [getAllUsedRefs, hc]
  show n ∈ compResponsesRefs (schemasOf d) c.responses _
  rw [hrl]
  apply foldl_contrib _ _ rl (rn, resp) hresp
  · simp only [hcs]
    exact hn
  · intro resp'
    cases hc' : resp'.2.content with
    | some cs' => simpa [hc'] using accumFn_contentRefs (schemasOf d) cs'
    | none => simpa [hc'] using accumFn_id

/-! ### The liveness set is closed under pool expansion -/

theorem poolClosed_collectSchemaRefs (pool : List (String × Schema)) (s : Schema)
    (R : List String) (h : PoolClosed R pool) :
    PoolClosed (collectSchemaRefs pool s R) pool := by
  intro k hk b hb n hn
  rcases collectGo_refs_sub_visited pool (topFuel pool s) (.one s) ⟨R, []⟩ k hk with h1 | h1
  · exact collectSchemaRefs_mono pool s R n (h k h1 b hb n hn)
  · exact collectGo_expands pool (topFuel pool s) (.one s) ⟨R, []⟩
      (topFuel_ge_bound pool s) k h1 (by simp) b hb n hn

theorem poolClosed_foldl {α : Type} {pool : List (String × Schema)}
    (step : List String → α → List String)
    (hstep : ∀ R a, PoolClosed R pool → PoolClosed (step R a) pool)
    (l : List α) (R : List String) (h : PoolClosed R pool) :
    PoolClosed (l.foldl step R) pool := by
  induction l generalizing R with
  | nil => exact h
  | cons a l ih => exact ih (step R a) (hstep R a h)

theorem poolClosed_optParamsRefs {pool : List (String × Schema)}
    (params : Option (List Parameter)) (R : List String) (h : PoolClosed R pool) :
    PoolClosed (optParamsRefs pool params R) pool := by
  cases params with
  | some ps =>
    apply poolClosed_foldl _ _ ps R h
    intro R' p h'
    cases hp : p.schema with
    | some s => simpa [hp] using poolClosed_collectSchemaRefs pool s R' h'
    | none => simpa [hp] using h'
  | none => exact h

theorem poolClosed_contentRefs {pool : List (String × Schema)}
    (cs : List (String × MediaObject)) (R : List String) (h : PoolClosed R pool) :
    PoolClosed (contentRefs pool cs R) pool := by
  apply poolClosed_foldl _ _ cs R h
  intro R' cc h'
  cases hc : cc.2.schema with
  | some s => simpa [hc] using poolClosed_collectSchemaRefs pool s R' h'
  | none => simpa [hc] using h'

theorem poolClosed_responsesFold {pool : List (String × Schema)}
    (rs : List (String × Response)) (R : List String) (h : PoolClosed R pool) :
    PoolClosed (rs.foldl (fun r resp => match resp.2.content with
      | some cs => contentRefs pool cs r
      | none => r) R) pool := by
  apply poolClosed_foldl _ _ rs R h
  intro R' resp h'
  cases hc : resp.2.content with
  | some cs => simpa [hc] using poolClosed_contentRefs cs R' h'
  | none => simpa [hc] using h'

theorem poolClosed_collectRefs {pool : List (String × Schema)} (op : Operation)
    (R : List String) (h : PoolClosed R pool) : PoolClosed (collectRefs pool op R) pool := by
  simp only [collectRefs]
  have h1 := poolClosed_optParamsRefs op.parameters R h
  have h2 : PoolClosed (match op.requestBody with
      | some rb => contentRefs pool rb.content (optParamsRefs pool op.parameters R)
      | none => optParamsRefs pool op.parameters R) pool := by
    cases op.requestBody with
    | some rb => exact poolClosed_contentRefs rb.content _ h1
    | none => exact h1
  exact poolClosed_responsesFold op.responses _ h2

theorem poolClosed_methodsRefs {pool : List (String × Schema)} (item : PathItem)
    (R : List String) (h : PoolClosed R pool) :
    PoolClosed (methodsRefs pool item R) pool := by
  apply poolClosed_foldl _ _ methodsOrder R h
  intro R' m h'
  cases hm : item.getM m with
  | some op => simpa [hm] using poolClosed_collectRefs op R' h'
  | none => simpa [hm] using h'

theorem poolClosed_pathsRefs {pool : List (String × Schema)}
    (paths : List (String × PathItem)) (R : List String) (h : PoolClosed R pool) :
    PoolClosed (pathsRefs pool paths R) pool := by
  apply poolClosed_foldl _ _ paths R h
  intro R' pi h'
  exact poolClosed_methodsRefs pi.2 _ (poolClosed_optParamsRefs pi.2.parameters R' h')

theorem poolClosed_compParamsRefs {pool : List (String × Schema)}
    (ps : Option (List (String × Parameter))) (R : List String) (h : PoolClosed R pool) :
    PoolClosed (compParamsRefs pool ps R) pool := by
  cases ps with
  | some pl =>
    apply poolClosed_foldl _ _ pl R h
    intro R' p h'
    cases hp : p.2.schema with
    | some s => simpa [hp] using poolClosed_collectSchemaRefs pool s R' h'
    | none => simpa [hp] using h'
  | none => exact h

theorem poolClosed_compRequestBodiesRefs {pool : List (String × Schema)}
    (rbs : Option (List (String × RequestBody))) (R : List String)
    (h : PoolClosed R pool) : PoolClosed (compRequestBodiesRefs pool rbs R) pool := by
  cases rbs with
  | some rl =>
    apply poolClosed_foldl _ _ rl R h
    intro R' rb h'
    exact poolClosed_contentRefs rb.2.content R' h'
  | none => exact h

theorem poolClosed_compResponsesRefs {pool : List (String × Schema)}
    (rs : Option (List (String × Response))) (R : List String)
    (h : PoolClosed R pool) : PoolClosed (compResponsesRefs pool rs R) pool := by
  cases rs with
  | some rl =>
    apply poolClosed_foldl _ _ rl R h
    intro R' resp h'
    cases hc : resp.2.content with
    | some cs => simpa [hc] using poolClosed_contentRefs cs R' h'
    | none => simpa [hc] using h'
  | none => exact h

/-- The liveness set is closed under direct references of the pool bodies
of its members: every collected name's pool entry was expanded during the
scan. -/
theorem poolClosed_getAllUsedRefs (d : OpenAPIDocument) :
    PoolClosed (getAllUsedRefs d) (schemasOf d) := by
  have hnil : PoolClosed [] (schemasOf d) := by
    intro k hk
    simp at hk
  have hpaths := poolClosed_pathsRefs d.paths [] hnil
  simp only [getAllUsedRefs]
  cases d.components with
  | none => exact hpaths
  | some c =>
    exact poolClosed_compResponsesRefs c.responses _
      (poolClosed_compRequestBodiesRefs c.requestBodies _
        (poolClosed_compParamsRefs c.parameters _ hpaths))

/-! ### The dependency-ordered sweep -/

theorem subPool_refl (pool : List (String × Schema)) : SubPool pool pool :=
  fun _ _ h => h

theorem subPool_trans {a b c : List (String × Schema)} (h1 : SubPool a b)
    (h2 : SubPool b c) : SubPool a c :=
  fun k v h => h2 k v (h1 k v h)

theorem subPool_eraseKey (n : String) (pool : List (String × Schema)) :
    SubPool (eraseKey n pool) pool :=
  fun _ _ h => lookupName_of_lookupName_eraseKey h

theorem deleteSchemasPass_subpool :
    ∀ (snapshot : List String) (schemas : List (String × Schema))
      (cands : List String) (del : Bool),
      SubPool (deleteSchemasPass snapshot schemas cands del).1 schemas := by
  intro snapshot
  induction snapshot with
  | nil => intro schemas cands del; exact subPool_refl schemas
  | cons n rest ih =>
    intro schemas cands del
    simp only [deleteSchemasPass]
    cases hl : lookupName schemas n with
    | none => exact ih schemas cands del
    | some body =>
      by_cases hcd : (collectSchemaRefs schemas body []).all (fun r =>
          !(decide (r ∈ cands)) || !(lookupName schemas r).isSome) = true
      · simp only [hcd, if_true]
        exact subPool_trans (ih _ _ _) (subPool_eraseKey n schemas)
      · simp only [hcd, if_false]
        exact ih schemas cands del

theorem deleteSchemasPass_cands_sub :
    ∀ (snapshot : List String) (schemas : List (String × Schema))
      (cands : List String) (del : Bool),
      ∀ x ∈ (deleteSchemasPass snapshot schemas cands del).2.1, x ∈ cands := by
  intro snapshot
  induction snapshot with
  | nil => intro schemas cands del x hx; exact hx
  | cons n rest ih =>
    intro schemas cands del x hx
    simp only [deleteSchemasPass] at hx
    cases hl : lookupName schemas n with
    | none =>
      rw [hl] at hx
      exact ih schemas cands del x hx
    | some body =>
      rw [hl] at hx
      by_cases hcd : (collectSchemaRefs schemas body []).all (fun r =>
          !(decide (r ∈ cands)) || !(lookupName schemas r).isSome) = true
      · simp only [hcd, if_true] at hx
        have := ih _ _ _ x hx
        exact List.mem_of_mem_filter this
      · simp only [hcd, if_false] at hx
        exact ih schemas cands del x hx

theorem deleteSchemasPass_none {k : String} :
    ∀ (snapshot : List String) (schemas : List (String × Schema))
      (cands : List String) (del : Bool),
      lookupName schemas k = none →
      lookupName (deleteSchemasPass snapshot schemas cands del).1 k = none := by
  intro snapshot schemas cands del h
  cases hl : lookupName (deleteSchemasPass snapshot schemas cands del).1 k with
  | none => rfl
  | some v =>
    have := deleteSchemasPass_subpool snapshot schemas cands del k v hl
    rw [h] at this
    cases this

theorem deleteSchemasPass_preserves {k : String} :
    ∀ (snapshot : List String) (schemas : List (String × Schema))
      (cands : List String) (del : Bool), k ∉ snapshot →
      lookupName (deleteSchemasPass snapshot schemas cands del).1 k =
        lookupName schemas k := by
  intro snapshot
  induction snapshot with
  | nil => intro schemas cands del _; rfl
  | cons n rest ih =>
    intro schemas cands del hk
    have hkn : k ≠ n := fun h => hk (h ▸ List.mem_cons_self n rest)
    have hkr : k ∉ rest := fun h => hk (List.mem_cons_of_mem n h)
    simp only [deleteSchemasPass]
    cases hl : lookupName schemas n with
    | none => exact ih schemas cands del hkr
    | some body =>
      by_cases hcd : (collectSchemaRefs schemas body []).all (fun r =>
          !(decide (r ∈ cands)) || !(lookupName schemas r).isSome) = true
      · simp only [hcd, if_true]
        rw [ih _ _ _ hkr, lookupName_eraseKey]
        simp [hkn]
      · simp only [hcd, if_false]
        exact ih schemas cands del hkr

theorem deleteSchemasLoop_subpool :
    ∀ (fuel : Nat) (schemas : List (String × Schema)) (cands : List String),
      SubPool (deleteSchemasLoop fuel schemas cands) schemas := by
  intro fuel
  induction fuel with
  | zero => intro schemas cands; exact subPool_refl schemas
  | succ fuel ih =>
    intro schemas cands
    simp only [deleteSchemasLoop]
    cases hp : deleteSchemasPass cands schemas cands false with
    | mk schemas' rest =>
      obtain ⟨cands', del⟩ := rest
      have hsub : SubPool schemas' schemas := by
        have := deleteSchemasPass_subpool cands schemas cands false
        rw [hp] at this
        exact this
      by_cases hc : (del && decide (0 < cands'.length)) = true
      · simp only [hc, if_true]
        exact subPool_trans (ih schemas' cands') hsub
      · simp only [hc, if_false]
        exact hsub

theorem deleteSchemasLoop_none {k : String} :
    ∀ (fuel : Nat) (schemas : List (String × Schema)) (cands : List String),
      lookupName schemas k = none →
      lookupName (deleteSchemasLoop fuel schemas cands) k = none := by
  intro fuel schemas cands h
  cases hl : lookupName (deleteSchemasLoop fuel schemas cands) k with
  | none => rfl
  | some v =>
    have := deleteSchemasLoop_subpool fuel schemas cands k v hl
    rw [h] at this
    cases this

theorem deleteSchemasLoop_preserves {k : String} :
    ∀ (fuel : Nat) (schemas : List (String × Schema)) (cands : List String),
      k ∉ cands →
      lookupName (deleteSchemasLoop fuel schemas cands) k = lookupName schemas k := by
  intro fuel
  induction fuel with
  | zero => intro schemas cands _; rfl
  | succ fuel ih =>
    intro schemas cands hk
    simp only [deleteSchemasLoop]
    cases hp : deleteSchemasPass cands schemas cands false with
    | mk schemas' rest =>
      obtain ⟨cands', del⟩ := rest
      have hpre : lookupName schemas' k = lookupName schemas k := by
        have := deleteSchemasPass_preserves cands schemas cands false hk
        rw [hp] at this
        exact this
      have hkc : k ∉ cands' := by
        intro hmem
        have := deleteSchemasPass_cands_sub cands schemas cands false k
        rw [hp] at this
        exact hk (this hmem)
      by_cases hc : (del && decide (0 < cands'.length)) = true
      · simp only [hc, if_true]
        rw [ih schemas' cands' hkc, hpre]
      · simp only [hc, if_false]
        exact hpre

/-- `deleteSchemas` never deletes a name that is not a candidate. -/
theorem deleteSchemas_preserves {k : String} (schemas : List (String × Schema))
    (cands : List String) (hk : k ∉ cands) :
    lookupName (deleteSchemas schemas cands) k = lookupName schemas k :=
  deleteSchemasLoop_preserves _ schemas cands hk

/-- The mutual-cycle invariant: two candidates whose bodies directly
reference each other block each other's `canDelete` condition forever. -/
theorem deleteSchemasPass_keeps_cycle {P Q : String} {bP bQ : Schema}
    (hdP : Q ∈ schemaDirectRefs bP) (hdQ : P ∈ schemaDirectRefs bQ) :
    ∀ (snapshot : List String) (schemas : List (String × Schema))
      (cands : List String) (del : Bool),
      lookupName schemas P = some bP → lookupName schemas Q = some bQ →
      P ∈ cands → Q ∈ cands →
      lookupName (deleteSchemasPass snapshot schemas cands del).1 P = some bP ∧
      lookupName (deleteSchemasPass snapshot schemas cands del).1 Q = some bQ ∧
      P ∈ (deleteSchemasPass snapshot schemas cands del).2.1 ∧
      Q ∈ (deleteSchemasPass snapshot schemas cands del).2.1 := by
  intro snapshot
  induction snapshot with
  | nil => intro schemas cands del h1 h2 h3 h4; exact ⟨h1, h2, h3, h4⟩
  | cons n rest ih =>
    intro schemas cands del h1 h2 h3 h4
    simp only [deleteSchemasPass]
    cases hl : lookupName schemas n with
    | none => exact ih schemas cands del h1 h2 h3 h4
    | some body =>
      by_cases hcd : (collectSchemaRefs schemas body []).all (fun r =>
          !(decide (r ∈ cands)) || !(lookupName schemas r).isSome) = true
      · simp only [hcd, if_true]
        have htop : taskSize (.one body) ≤ topFuel schemas body := by
          simp only [taskSize, topFuel]
          omega
        have hnP : n ≠ P := by
          rintro rfl
          rw [h1] at hl
          cases hl
          have hQmem : Q ∈ collectSchemaRefs schemas bP [] :=
            collectGo_direct schemas (topFuel schemas bP) (.one bP) ⟨[], []⟩ htop Q hdP
          have := List.all_eq_true.mp hcd Q hQmem
          simp only [h4, decide_eq_true_eq, h2] at this
          simp [h4, h2] at this
        have hnQ : n ≠ Q := by
          rintro rfl
          rw [h2] at hl
          cases hl
          have hPmem : P ∈ collectSchemaRefs schemas bQ [] :=
            collectGo_direct schemas (topFuel schemas bQ) (.one bQ) ⟨[], []⟩ htop P hdQ
          have := List.all_eq_true.mp hcd P hPmem
          simp [h3, h1] at this
        apply ih
        · have hPn : ¬ P = n := fun h => hnP h.symm
          rw [lookupName_eraseKey]
          simp [hPn, h1]
        · have hQn : ¬ Q = n := fun h => hnQ h.symm
          rw [lookupName_eraseKey]
          simp [hQn, h2]
        · have hPn : ¬ P = n := fun h => hnP h.symm
          exact List.mem_filter.mpr ⟨h3, by simp [hPn]⟩
        · have hQn : ¬ Q = n := fun h => hnQ h.symm
          exact List.mem_filter.mpr ⟨h4, by simp [hQn]⟩
      · simp only [hcd, if_false]
        exact ih schemas cands del h1 h2 h3 h4

theorem deleteSchemasLoop_keeps_cycle {P Q : String} {bP bQ : Schema}
    (hdP : Q ∈ schemaDirectRefs bP) (hdQ : P ∈ schemaDirectRefs bQ) :
    ∀ (fuel : Nat) (schemas : List (String × Schema)) (cands : List String),
      lookupName schemas P = some bP → lookupName schemas Q = some bQ →
      P ∈ cands → Q ∈ cands →
      lookupName (deleteSchemasLoop fuel schemas cands) P = some bP ∧
      lookupName (deleteSchemasLoop fuel schemas cands) Q = some bQ := by
  intro fuel
  induction fuel with
  | zero => intro schemas cands h1 h2 _ _; exact ⟨h1, h2⟩
  | succ fuel ih =>
    intro schemas cands h1 h2 h3 h4
    simp only [deleteSchemasLoop]
    have hinv := deleteSchemasPass_keeps_cycle hdP hdQ cands schemas cands false h1 h2 h3 h4
    cases hp : deleteSchemasPass cands schemas cands false with
    | mk schemas' rest =>
      obtain ⟨cands', del⟩ := rest
      rw [hp] at hinv
      by_cases hc : (del && decide (0 < cands'.length)) = true
      · simp only [hc, if_true]
        exact ih schemas' cands' hinv.1 hinv.2.1 hinv.2.2.1 hinv.2.2.2
      · simp only [hc, if_false]
        exact ⟨hinv.1, hinv.2.1⟩

/-- A candidate whose body's references are all live (hence non-candidates)
is deleted by the first pass that reaches it. -/
theorem deleteSchemasPass_deletes {U : List String} {pool0 : List (String × Schema)}
    (hcl : PoolClosed U pool0) {S : String} {bS : Schema}
    (hdS : ∀ n ∈ schemaDirectRefs bS, n ∈ U) :
    ∀ (snapshot : List String) (schemas : List (String × Schema))
      (cands : List String) (del : Bool),
      SubPool schemas pool0 →
      (∀ k ∈ cands, k ∉ U) →
      S ∈ snapshot → lookupName schemas S = some bS →
      lookupName (deleteSchemasPass snapshot schemas cands del).1 S = none := by
  intro snapshot
  induction snapshot with
  | nil => intro schemas cands del _ _ hS; simp at hS
  | cons n rest ih =>
    intro schemas cands del hsub hcands hS hlS
    simp only [deleteSchemasPass]
    by_cases hn : n = S
    · subst hn
      rw [hlS]
      have hrefs : ∀ r ∈ collectSchemaRefs schemas bS [], r ∈ U := by
        intro r hr
        exact collectGo_closed_sound U pool0 schemas hsub hcl (topFuel schemas bS)
          (.one bS) ⟨[], []⟩ hdS (by simp) r hr
      have hcd : (collectSchemaRefs schemas bS []).all (fun r =>
          !(decide (r ∈ cands)) || !(lookupName schemas r).isSome) = true := by
        apply List.all_eq_true.mpr
        intro r hr
        have hrU := hrefs r hr
        have hrc : r ∉ cands := fun hmem => hcands r hmem hrU
        simp [hrc]
      simp only [hcd, if_true]
      apply deleteSchemasPass_none
      rw [lookupName_eraseKey]
      simp
    · cases hl : lookupName schemas n with
      | none => exact ih schemas cands del hsub hcands (by
          rcases List.mem_cons.mp hS with h | h
          · exact absurd h.symm hn
          · exact h) hlS
      | some body =>
        have hS' : S ∈ rest := by
          rcases List.mem_cons.mp hS with h | h
          · exact absurd h.symm hn
          · exact h
        by_cases hcd : (collectSchemaRefs schemas body []).all (fun r =>
            !(decide (r ∈ cands)) || !(lookupName schemas r).isSome) = true
        · simp only [hcd, if_true]
          apply ih
          · exact subPool_trans (subPool_eraseKey n schemas) hsub
          · intro k hk
            exact hcands k (List.mem_of_mem_filter hk)
          · exact hS'
          · have hSn : ¬ S = n := fun h => hn h.symm
            rw [lookupName_eraseKey]
            simp [hSn, hlS]
        · simp only [hcd, if_false]
          exact ih schemas cands del hsub hcands hS' hlS

/-- `deleteSchemas` removes such a candidate. -/
theorem deleteSchemas_deletes {U : List String} {pool0 : List (String × Schema)}
    (hcl : PoolClosed U pool0) {S : String} {bS : Schema}
    (hdS : ∀ n ∈ schemaDirectRefs bS, n ∈ U)
    (schemas : List (String × Schema)) (cands : List String)
    (hsub : SubPool schemas pool0) (hcands : ∀ k ∈ cands, k ∉ U)
    (hS : S ∈ cands) (hlS : lookupName schemas S = some bS) :
    lookupName (deleteSchemas schemas cands) S = none := by
  simp only [deleteSchemas, deleteSchemasLoop]
  have hdel := deleteSchemasPass_deletes hcl hdS cands schemas cands false hsub hcands hS hlS
  cases hp : deleteSchemasPass cands schemas cands false with
  | mk schemas' rest =>
    obtain ⟨cands', del⟩ := rest
    rw [hp] at hdel
    by_cases hc : (del && decide (0 < cands'.length)) = true
    · simp only [hc, if_true]
      exact deleteSchemasLoop_none _ schemas' cands' hdel
    · simp only [hc, if_false]
      exact hdel

/-! ### The operation-removal phase -/

theorem getM_setNone_self (it : PathItem) (m : Method) :
    (it.setNone m).getM m = none := by
  cases m <;> rfl

theorem getM_setNone_ne (it : PathItem) {m m' : Method} (h : m' ≠ m) :
    (it.setNone m).getM m' = it.getM m' := by
  cases m <;> cases m' <;> simp_all [PathItem.setNone, PathItem.getM]

theorem setNone_parameters (it : PathItem) (m : Method) :
    (it.setNone m).parameters = it.parameters := by
  cases m <;> rfl

theorem keyCount_pos_of_getM {it : PathItem} {m : Method} {op : Operation}
    (h : it.getM m = some op) : 1 ≤ it.keyCount := by
  have hm : m ∈ methodsOrder.filter (fun m => (it.getM m).isSome) :=
    List.mem_filter.mpr ⟨mem_methodsOrder m, by simp [h]⟩
  have := List.length_pos_of_mem hm
  simp only [PathItem.keyCount]
  omega

theorem keyCount_pos_of_parameters {it : PathItem} {ps : List Parameter}
    (h : it.parameters = some ps) : 1 ≤ it.keyCount := by
  simp only [PathItem.keyCount, h]
  simp

theorem keyCount_eq_zero_iff (it : PathItem) :
    it.keyCount = 0 ↔ (∀ m, it.getM m = none) ∧ it.parameters = none := by
  constructor
  · intro h
    constructor
    · intro m
      cases hm : it.getM m with
      | none => rfl
      | some op => exact absurd h (by have := keyCount_pos_of_getM hm; omega)
    · cases hp : it.parameters with
      | none => rfl
      | some ps => exact absurd h (by have := keyCount_pos_of_parameters hp; omega)
  · rintro ⟨hm, hp⟩
    simp only [PathItem.keyCount, hp]
    have : methodsOrder.filter (fun m => (it.getM m).isSome) = [] := by
      apply List.filter_eq_nil_iff.mpr
      intro m _
      simp [hm m]
    simp [this]

/-- Slots can only be cleared: a populated result slot was populated with
the same operation before. -/
theorem removeMethods_getM_some {pool : List (String × Schema)} {opId : String} :
    ∀ (ms : List Method) (it : PathItem) (tg rf : List String) (del : Bool)
      (m : Method) (op : Operation),
      (removeMethods pool opId ms it tg rf del).1.getM m = some op →
      it.getM m = some op := by
  intro ms
  induction ms with
  | nil => intro it tg rf del m op h; exact h
  | cons m0 ms ih =>
    intro it tg rf del m op h
    simp only [removeMethods] at h
    cases hm0 : it.getM m0 with
    | none =>
      rw [hm0] at h
      exact ih it tg rf del m op h
    | some op0 =>
      rw [hm0] at h
      by_cases hid : op0.operationId = some opId
      · simp only [hid, if_true] at h
        have := ih _ _ _ _ m op h
        by_cases hmm : m = m0
        · subst hmm
          rw [getM_setNone_self] at this
          cases this
        · rw [getM_setNone_ne it hmm] at this
          exact this
      · simp only [hid, if_false] at h
        exact ih it tg rf del m op h

/-- A non-matching slot is untouched. -/
theorem removeMethods_getM_nonmatch {pool : List (String × Schema)} {opId : String} :
    ∀ (ms : List Method) (it : PathItem) (tg rf : List String) (del : Bool)
      (m : Method) (op : Operation),
      it.getM m = some op → op.operationId ≠ some opId →
      (removeMethods pool opId ms it tg rf del).1.getM m = some op := by
  intro ms
  induction ms with
  | nil => intro it tg rf del m op h _; exact h
  | cons m0 ms ih =>
    intro it tg rf del m op h hne
    simp only [removeMethods]
    cases hm0 : it.getM m0 with
    | none => exact ih it tg rf del m op h hne
    | some op0 =>
      by_cases hid : op0.operationId = some opId
      · simp only [hid, if_true]
        apply ih
        · by_cases hmm : m = m0
          · subst hmm
            rw [hm0] at h
            cases h
            exact absurd hid hne
          · rw [getM_setNone_ne it hmm]
            exact h
        · exact hne
      · simp only [hid, if_false]
        exact ih it tg rf del m op h hne

/-- A matching slot in the scanned list ends up cleared. -/
theorem removeMethods_getM_match {pool : List (String × Schema)} {opId : String} :
    ∀ (ms : List Method) (it : PathItem) (tg rf : List String) (del : Bool)
      (m : Method) (op : Operation), m ∈ ms →
      it.getM m = some op → op.operationId = some opId →
      (removeMethods pool opId ms it tg rf del).1.getM m = none := by
  intro ms
  have hnone : ∀ (ms : List Method) (it : PathItem) (tg rf : List String) (del : Bool)
      (m : Method), it.getM m = none →
      (removeMethods pool opId ms it tg rf del).1.getM m = none := by
    intro ms
    induction ms with
    | nil => intro it tg rf del m h; exact h
    | cons m0 ms ih =>
      intro it tg rf del m h
      simp only [removeMethods]
      cases hm0 : it.getM m0 with
      | none => exact ih it tg rf del m h
      | some op0 =>
        by_cases hid : op0.operationId = some opId
        · simp only [hid, if_true]
          apply ih
          by_cases hmm : m = m0
          · subst hmm
            exact getM_setNone_self it m
          · rw [getM_setNone_ne it hmm]
            exact h
        · simp only [hid, if_false]
          exact ih it tg rf del m h
  induction ms with
  | nil => intro it tg rf del m op hm; simp at hm
  | cons m0 ms ih =>
    intro it tg rf del m op hm h hid
    simp only [removeMethods]
    rcases List.mem_cons.mp hm with rfl | hm2
    · rw [h]
      simp only [hid, if_true]
      exact hnone ms _ _ _ _ m (getM_setNone_self it m)
    · cases hm0 : it.getM m0 with
      | none => exact ih it tg rf del m op hm2 h hid
      | some op0 =>
        by_cases hid0 : op0.operationId = some opId
        · simp only [hid0, if_true]
          by_cases hmm : m = m0
          · subst hmm
            exact hnone ms _ _ _ _ m (getM_setNone_self it m)
          · apply ih _ _ _ _ m op hm2 _ hid
            rw [getM_setNone_ne it hmm]
            exact h
        · simp only [hid0, if_false]
          exact ih it tg rf del m op hm2 h hid

theorem removeMethods_parameters {pool : List (String × Schema)} {opId : String} :
    ∀ (ms : List Method) (it : PathItem) (tg rf : List String) (del : Bool),
      (removeMethods pool opId ms it tg rf del).1.parameters = it.parameters := by
  intro ms
  induction ms with
  | nil => intro it tg rf del; rfl
  | cons m0 ms ih =>
    intro it tg rf del
    simp only [removeMethods]
    cases hm0 : it.getM m0 with
    | none => exact ih it tg rf del
    | some op0 =>
      by_cases hid : op0.operationId = some opId
      · simp only [hid, if_true]
        rw [ih, setNone_parameters]
      · simp only [hid, if_false]
        exact ih it tg rf del

/-- The item and deletion-flag results do not depend on the tag/reference
accumulators. -/
theorem removeMethods_acc_indep {pool : List (String × Schema)} {opId : String} :
    ∀ (ms : List Method) (it : PathItem) (tg rf tg' rf' : List String) (del : Bool),
      (removeMethods pool opId ms it tg rf del).1 =
        (removeMethods pool opId ms it tg' rf' del).1 ∧
      (removeMethods pool opId ms it tg rf del).2.2.2 =
        (removeMethods pool opId ms it tg' rf' del).2.2.2 := by
  intro ms
  induction ms with
  | nil => intro it tg rf tg' rf' del; exact ⟨rfl, rfl⟩
  | cons m0 ms ih =>
    intro it tg rf tg' rf' del
    simp only [removeMethods]
    cases hm0 : it.getM m0 with
    | none => exact ih it tg rf tg' rf' del
    | some op0 =>
      by_cases hid : op0.operationId = some opId
      · simp only [hid, if_true]
        exact ih _ _ _ _ _ _
      · simp only [hid, if_false]
        exact ih it tg rf tg' rf' del

theorem removeMethods_no_match {pool : List (String × Schema)} {opId : String} :
    ∀ (ms : List Method) (it : PathItem) (tg rf : List String) (del : Bool),
      (∀ m ∈ ms, ∀ op, it.getM m = some op → op.operationId ≠ some opId) →
      removeMethods pool opId ms it tg rf del = (it, tg, rf, del) := by
  intro ms
  induction ms with
  | nil => intro it tg rf del _; rfl
  | cons m0 ms ih =>
    intro it tg rf del h
    simp only [removeMethods]
    cases hm0 : it.getM m0 with
    | none =>
      exact ih it tg rf del (fun m hm op hop => h m (List.mem_cons_of_mem m0 hm) op hop)
    | some op0 =>
      have hne := h m0 (List.mem_cons_self m0 ms) op0 hm0
      simp only [hne, if_false]
      exact ih it tg rf del (fun m hm op hop => h m (List.mem_cons_of_mem m0 hm) op hop)

/-- The deletion flag is set exactly when some slot of the scanned list
holds a matching operation. -/
theorem removeMethods_del_iff {pool : List (String × Schema)} {opId : String} :
    ∀ (ms : List Method) (it : PathItem) (tg rf : List String) (del : Bool),
      (removeMethods pool opId ms it tg rf del).2.2.2 = true ↔
        del = true ∨ ∃ m ∈ ms, ∃ op, it.getM m = some op ∧ op.operationId = some opId := by
  intro ms
  induction ms with
  | nil =>
    intro it tg rf del
    simp [removeMethods]
  | cons m0 ms ih =>
    intro it tg rf del
    simp only [removeMethods]
    cases hm0 : it.getM m0 with
    | none =>
      rw [ih]
      constructor
      · rintro (h | ⟨m, hm, op, hop, hopid⟩)
        · exact Or.inl h
        · exact Or.inr ⟨m, List.mem_cons_of_mem m0 hm, op, hop, hopid⟩
      · rintro (h | ⟨m, hm, op, hop, hopid⟩)
        · exact Or.inl h
        · rcases List.mem_cons.mp hm with rfl | hm2
          · rw [hm0] at hop
            cases hop
          · exact Or.inr ⟨m, hm2, op, hop, hopid⟩
    | some op0 =>
      by_cases hid : op0.operationId = some opId
      · simp only [hid, if_true]
        rw [ih]
        constructor
        · intro _
          exact Or.inr ⟨m0, List.mem_cons_self m0 ms, op0, hm0, hid⟩
        · intro _
          exact Or.inl rfl
      · simp only [hid, if_false]
        rw [ih]
        constructor
        · rintro (h | ⟨m, hm, op, hop, hopid⟩)
          · exact Or.inl h
          · exact Or.inr ⟨m, List.mem_cons_of_mem m0 hm, op, hop, hopid⟩
        · rintro (h | ⟨m, hm, op, hop, hopid⟩)
          · exact Or.inl h
          · rcases List.mem_cons.mp hm with rfl | hm2
            · rw [hm0] at hop
              cases hop
              exact absurd hopid hid
            · exact Or.inr ⟨m, hm2, op, hop, hopid⟩

theorem removePaths_no_match {pool : List (String × Schema)} {opId : String} :
    ∀ (paths : List (String × PathItem)) (tg rf : List String) (del : Bool),
      (∀ p item, (p, item) ∈ paths → ∀ m op, item.getM m = some op →
        op.operationId ≠ some opId) →
      removePaths pool opId paths tg rf del = (paths, tg, rf, del) := by
  intro paths
  induction paths with
  | nil => intro tg rf del _; rfl
  | cons e rest ih =>
    obtain ⟨p0, item0⟩ := e
    intro tg rf del h
    simp only [removePaths]
    rw [removeMethods_no_match methodsOrder item0 tg rf false
      (fun m hm op hop => h p0 item0 (List.mem_cons_self _ _) m op hop)]
    rw [ih tg rf (del || false)
      (fun p item hmem m op hop => h p item (List.mem_cons_of_mem _ hmem) m op hop)]
    simp

theorem removePaths_keys_sub {pool : List (String × Schema)} {opId : String} :
    ∀ (paths : List (String × PathItem)) (tg rf : List String) (del : Bool) (q : String),
      q ∈ (removePaths pool opId paths tg rf del).1.map Prod.fst →
      q ∈ paths.map Prod.fst := by
  intro paths
  induction paths with
  | nil => intro tg rf del q h; exact h
  | cons e rest ih =>
    obtain ⟨p0, item0⟩ := e
    intro tg rf del q h
    simp only [removePaths] at h
    cases hrm : removeMethods pool opId methodsOrder item0 tg rf false with
    | mk item' rest' =>
      obtain ⟨tg', rf', hereDel⟩ := rest'
      rw [hrm] at h
      cases hrp : removePaths pool opId rest tg' rf' (del || hereDel) with
      | mk restPaths acc =>
        obtain ⟨tg2, rf2, del2⟩ := acc
        rw [hrp] at h
        simp only at h
        by_cases hdrop : (hereDel && decide (item'.keyCount = 0)) = true
        · rw [if_pos hdrop] at h
          have hq : q ∈ (removePaths pool opId rest tg' rf' (del || hereDel)).1.map Prod.fst := by
            rw [hrp]
            exact h
          exact List.mem_cons_of_mem _ (ih tg' rf' (del || hereDel) q hq)
        · rw [if_neg hdrop] at h
          simp only [List.map_cons, List.mem_cons] at h
          rcases h with rfl | h
          · exact List.mem_cons_self _ _
          · have hq : q ∈ (removePaths pool opId rest tg' rf' (del || hereDel)).1.map Prod.fst := by
              rw [hrp]
              exact h
            exact List.mem_cons_of_mem _ (ih tg' rf' (del || hereDel) q hq)

theorem removePaths_del_iff {pool : List (String × Schema)} {opId : String} :
    ∀ (paths : List (String × PathItem)) (tg rf : List String) (del : Bool),
      (removePaths pool opId paths tg rf del).2.2.2 = true ↔
        del = true ∨ ∃ p item, (p, item) ∈ paths ∧ ∃ m op,
          item.getM m = some op ∧ op.operationId = some opId := by
  intro paths
  induction paths with
  | nil =>
    intro tg rf del
    simp [removePaths]
  | cons e rest ih =>
    obtain ⟨p0, item0⟩ := e
    intro tg rf del
    simp only [removePaths]
    cases hrm : removeMethods pool opId methodsOrder item0 tg rf false with
    | mk item' rest' =>
      obtain ⟨tg', rf', hereDel⟩ := rest'
      have hHere : hereDel = true ↔ ∃ m op, item0.getM m = some op ∧
          op.operationId = some opId := by
        have := @removeMethods_del_iff pool opId methodsOrder item0 tg rf false
        rw [hrm] at this
        simp only at this
        rw [this]
        constructor
        · rintro (h | ⟨m, _, op, hop, hid⟩)
          · cases h
          · exact ⟨m, op, hop, hid⟩
        · rintro ⟨m, op, hop, hid⟩
          exact Or.inr ⟨m, mem_methodsOrder m, op, hop, hid⟩
      cases hrp : removePaths pool opId rest tg' rf' (del || hereDel) with
      | mk restPaths acc =>
        obtain ⟨tg2, rf2, del2⟩ := acc
        have hrec := ih tg' rf' (del || hereDel)
        rw [hrp] at hrec
        simp only at hrec ⊢
        rw [hrec]
        constructor
        · rintro (h | ⟨p, item, hmem, m, op, hop, hid⟩)
          · rcases Bool.or_eq_true _ _ |>.mp h with h | h
            · exact Or.inl h
            · exact Or.inr ⟨p0, item0, List.mem_cons_self _ _, hHere.mp h⟩
          · exact Or.inr ⟨p, item, List.mem_cons_of_mem _ hmem, m, op, hop, hid⟩
        · rintro (h | ⟨p, item, hmem, m, op, hop, hid⟩)
          · exact Or.inl (by simp [h])
          · rcases List.mem_cons.mp hmem with heq | hmem2
            · cases heq
              exact Or.inl (by
                have : hereDel = true := hHere.mpr ⟨m, op, hop, hid⟩
                simp [this])
            · exact Or.inr ⟨p, item, hmem2, m, op, hop, hid⟩

theorem removePaths_survivor {pool : List (String × Schema)} {opId : String} :
    ∀ (paths : List (String × PathItem)) (tg rf : List String) (del : Bool)
      (p : String) (item : PathItem) (m : Method) (op : Operation),
      (p, item) ∈ paths → item.getM m = some op → op.operationId ≠ some opId →
      ∃ item', (p, item') ∈ (removePaths pool opId paths tg rf del).1 ∧
        item'.getM m = some op ∧ item'.parameters = item.parameters := by
  intro paths
  induction paths with
  | nil => intro tg rf del p item m op h; simp at h
  | cons e rest ih =>
    obtain ⟨p0, item0⟩ := e
    intro tg rf del p item m op hmem hop hne
    simp only [removePaths]
    cases hrm : removeMethods pool opId methodsOrder item0 tg rf false with
    | mk item' rest' =>
      obtain ⟨tg', rf', hereDel⟩ := rest'
      cases hrp : removePaths pool opId rest tg' rf' (del || hereDel) with
      | mk restPaths acc =>
        obtain ⟨tg2, rf2, del2⟩ := acc
        simp only
        rcases List.mem_cons.mp hmem with heq | hmem2
        · have hp : p0 = p := congrArg Prod.fst heq.symm
          have hi : item0 = item := congrArg Prod.snd heq.symm
          subst hp
          subst hi
          have hslot : item'.getM m = some op := by
            have := @removeMethods_getM_nonmatch pool opId methodsOrder item0 tg rf false m op hop hne
            rw [hrm] at this
            exact this
          have hkc : item'.keyCount ≠ 0 := by
            have := keyCount_pos_of_getM hslot
            omega
          have hcond : (hereDel && decide (item'.keyCount = 0)) = false := by
            simp [hkc]
          rw [hcond]
          simp only [Bool.false_eq_true, if_false]
          refine ⟨item', List.mem_cons_self _ _, hslot, ?_⟩
          have := @removeMethods_parameters pool opId methodsOrder item0 tg rf false
          rw [hrm] at this
          exact this
        · obtain ⟨item'', hmem'', hslot'', hpar''⟩ :=
            ih tg' rf' (del || hereDel) p item m op hmem2 hop hne
          rw [hrp] at hmem''
          simp only at hmem''
          by_cases hdrop : (hereDel && decide (item'.keyCount = 0)) = true
          · rw [if_pos hdrop]
            exact ⟨item'', hmem'', hslot'', hpar''⟩
          · rw [if_neg hdrop]
            exact ⟨item'', List.mem_cons_of_mem _ hmem'', hslot'', hpar''⟩

theorem removePaths_no_matching_survivor {pool : List (String × Schema)} {opId : String} :
    ∀ (paths : List (String × PathItem)) (tg rf : List String) (del : Bool)
      (p : String) (item' : PathItem),
      (p, item') ∈ (removePaths pool opId paths tg rf del).1 →
      ∀ m op, item'.getM m = some op → op.operationId ≠ some opId := by
  intro paths
  induction paths with
  | nil => intro tg rf del p item' h; simp [removePaths] at h
  | cons e rest ih =>
    obtain ⟨p0, item0⟩ := e
    intro tg rf del p item' hmem m op hop
    simp only [removePaths] at hmem
    cases hrm : removeMethods pool opId methodsOrder item0 tg rf false with
    | mk itemR rest' =>
      obtain ⟨tg', rf', hereDel⟩ := rest'
      rw [hrm] at hmem
      simp only at hmem
      cases hrp : removePaths pool opId rest tg' rf' (del || hereDel) with
      | mk restPaths acc =>
        obtain ⟨tg2, rf2, del2⟩ := acc
        rw [hrp] at hmem
        simp only at hmem
        by_cases hdrop : (hereDel && decide (itemR.keyCount = 0)) = true
        · rw [if_pos hdrop] at hmem
          have := ih tg' rf' (del || hereDel) p item' (by rw [hrp]; exact hmem) m op hop
          exact this
        · rw [if_neg hdrop] at hmem
          rcases List.mem_cons.mp hmem with heq | hmem2
          · have hi : item' = itemR := congrArg Prod.snd heq
            subst hi
            intro hid
            have horig : item0.getM m = some op := by
              have := @removeMethods_getM_some pool opId methodsOrder item0 tg rf false m op
              rw [hrm] at this
              exact this hop
            have := @removeMethods_getM_match pool opId methodsOrder item0 tg rf false m op
              (mem_methodsOrder m) horig hid
            rw [hrm] at this
            simp only at this
            rw [this] at hop
            cases hop
          · exact ih tg' rf' (del || hereDel) p item' (by rw [hrp]; exact hmem2) m op hop

/-- Removal direction of path pruning: when the deletions empty a path
item's key set, its entry disappears from the path table (unique path keys
assumed, as for JavaScript objects). -/
theorem removePaths_drop {pool : List (String × Schema)} {opId : String} :
    ∀ (paths : List (String × PathItem)) (tg rf : List String) (del : Bool)
      (p : String) (item : PathItem),
      (paths.map Prod.fst).Nodup → (p, item) ∈ paths →
      (removeMethods pool opId methodsOrder item [] [] false).2.2.2 = true →
      (removeMethods pool opId methodsOrder item [] [] false).1.keyCount = 0 →
      p ∉ (removePaths pool opId paths tg rf del).1.map Prod.fst := by
  intro paths
  induction paths with
  | nil => intro tg rf del p item _ h; simp at h
  | cons e rest ih =>
    obtain ⟨p0, item0⟩ := e
    intro tg rf del p item hnd hmem hdel hkc
    have hnd0 : p0 ∉ rest.map Prod.fst := by
      simp only [List.map_cons, List.nodup_cons] at hnd
      exact hnd.1
    have hndr : (rest.map Prod.fst).Nodup := by
      simp only [List.map_cons, List.nodup_cons] at hnd
      exact hnd.2
    simp only [removePaths]
    cases hrm : removeMethods pool opId methodsOrder item0 tg rf false with
    | mk item' rest' =>
      obtain ⟨tg', rf', hereDel⟩ := rest'
      cases hrp : removePaths pool opId rest tg' rf' (del || hereDel) with
      | mk restPaths acc =>
        obtain ⟨tg2, rf2, del2⟩ := acc
        simp only
        rcases List.mem_cons.mp hmem with heq | hmem2
        · have hp : p0 = p := congrArg Prod.fst heq.symm
          have hi : item0 = item := congrArg Prod.snd heq.symm
          subst hp
          subst hi
          have hind := @removeMethods_acc_indep pool opId methodsOrder item0 tg rf [] [] false
          have hdel' : hereDel = true := by
            rw [← hind.2] at hdel
            rw [hrm] at hdel
            exact hdel
          have hkc' : item'.keyCount = 0 := by
            rw [← hind.1] at hkc
            rw [hrm] at hkc
            exact hkc
          have hcond : (hereDel && decide (item'.keyCount = 0)) = true := by
            simp [hdel', hkc']
          rw [if_pos hcond]
          intro hq
          apply hnd0
          have : p0 ∈ (removePaths pool opId rest tg' rf' (del || hereDel)).1.map Prod.fst := by
            rw [hrp]
            exact hq
          exact removePaths_keys_sub rest tg' rf' (del || hereDel) p0 this
        · have hpne : p ≠ p0 := by
            rintro rfl
            exact hnd0 (List.mem_map.mpr ⟨(p, item), hmem2, rfl⟩)
          have hrec := ih tg' rf' (del || hereDel) p item hndr hmem2 hdel hkc
          rw [hrp] at hrec
          by_cases hdrop : (hereDel && decide (item'.keyCount = 0)) = true
          · rw [if_pos hdrop]
            exact hrec
          · rw [if_neg hdrop]
            simp only [List.map_cons, List.mem_cons]
            rintro (h | h)
            · exact hpne h
            · exact hrec h

/-- Keep direction of path pruning: an entry whose processed item keeps at
least one key survives, holding the processed item. -/
theorem removePaths_keep {pool : List (String × Schema)} {opId : String} :
    ∀ (paths : List (String × PathItem)) (tg rf : List String) (del : Bool)
      (p : String) (item : PathItem),
      (p, item) ∈ paths →
      ¬((removeMethods pool opId methodsOrder item [] [] false).2.2.2 = true ∧
        (removeMethods pool opId methodsOrder item [] [] false).1.keyCount = 0) →
      (p, (removeMethods pool opId methodsOrder item [] [] false).1) ∈
        (removePaths pool opId paths tg rf del).1 := by
  intro paths
  induction paths with
  | nil => intro tg rf del p item h; simp at h
  | cons e rest ih =>
    obtain ⟨p0, item0⟩ := e
    intro tg rf del p item hmem hkeep
    simp only [removePaths]
    cases hrm : removeMethods pool opId methodsOrder item0 tg rf false with
    | mk item' rest' =>
      obtain ⟨tg', rf', hereDel⟩ := rest'
      cases hrp : removePaths pool opId rest tg' rf' (del || hereDel) with
      | mk restPaths acc =>
        obtain ⟨tg2, rf2, del2⟩ := acc
        simp only
        rcases List.mem_cons.mp hmem with heq | hmem2
        · have hp : p0 = p := congrArg Prod.fst heq.symm
          have hi : item0 = item := congrArg Prod.snd heq.symm
          subst hp
          subst hi
          have hind := @removeMethods_acc_indep pool opId methodsOrder item0 tg rf [] [] false
          have hitem : item' = (removeMethods pool opId methodsOrder item0 [] [] false).1 := by
            rw [← hind.1, hrm]
          have hdel : hereDel = (removeMethods pool opId methodsOrder item0 [] [] false).2.2.2 := by
            rw [← hind.2, hrm]
          have hcond : (hereDel && decide (item'.keyCount = 0)) = false := by
            rw [hitem, hdel]
            rcases Decidable.not_and_iff_or_not.mp hkeep with h | h
            · simp only [Bool.and_eq_false_iff]
              left
              exact Bool.not_eq_true _ |>.mp h
            · simp [h]
          rw [hcond]
          simp only [Bool.false_eq_true, if_false]
          rw [← hitem]
          exact List.mem_cons_self _ _
        · have hrec := ih tg' rf' (del || hereDel) p item hmem2 hkeep
          rw [hrp] at hrec
          by_cases hdrop : (hereDel && decide (item'.keyCount = 0)) = true
          · rw [if_pos hdrop]
            exact hrec
          · rw [if_neg hdrop]
            exact List.mem_cons_of_mem _ hrec

/-! ### Cleanup phases touch disjoint parts of the document -/

theorem cleanupUnusedRefs_paths (d : OpenAPIDocument) (r : List String) :
    (cleanupUnusedRefs d r).paths = d.paths := by
  simp only [cleanupUnusedRefs]
  cases d.components <;> rfl

theorem cleanupUnusedRefs_tags (d : OpenAPIDocument) (r : List String) :
    (cleanupUnusedRefs d r).tags = d.tags := by
  simp only [cleanupUnusedRefs]
  cases d.components <;> rfl

theorem cleanupUnusedTags_paths (d : OpenAPIDocument) (t : List String) :
    (cleanupUnusedTags d t).paths = d.paths := by
  simp only [cleanupUnusedTags]
  cases d.tags with
  | none => rfl
  | some tl =>
    by_cases h : (tl.isEmpty || t.isEmpty) = true
    · simp [h]
    · simp only [h, Bool.false_eq_true, if_false]
      by_cases h2 : (tl.filter (fun tag =>
          !(decide (tag.name ∈ t)) || decide (tag.name ∈ usedTagsOf d.paths))).isEmpty = true
      · simp [h2]
      · simp [h2]

theorem cleanupUnusedTags_components (d : OpenAPIDocument) (t : List String) :
    (cleanupUnusedTags d t).components = d.components := by
  simp only [cleanupUnusedTags]
  cases d.tags with
  | none => rfl
  | some tl =>
    by_cases h : (tl.isEmpty || t.isEmpty) = true
    · simp [h]
    · simp only [h, Bool.false_eq_true, if_false]
      by_cases h2 : (tl.filter (fun tag =>
          !(decide (tag.name ∈ t)) || decide (tag.name ∈ usedTagsOf d.paths))).isEmpty = true
      · simp [h2]
      · simp [h2]

theorem midDoc_components (d : OpenAPIDocument) (opId : String) :
    (midDoc d opId).components = d.components := rfl

theorem midDoc_tags (d : OpenAPIDocument) (opId : String) :
    (midDoc d opId).tags = d.tags := rfl

theorem schemasOf_midDoc (d : OpenAPIDocument) (opId : String) :
    schemasOf (midDoc d opId) = schemasOf d := rfl

/-- The branch structure of `deleteFunction` in terms of the phase
functions. -/
theorem deleteFunction_eq (d : OpenAPIDocument) (opId : String) :
    deleteFunction d opId =
      (if (removePaths (schemasOf d) opId d.paths [] [] false).2.2.2 then
        cleanupUnusedTags
          (cleanupUnusedRefs (midDoc d opId)
            (removePaths (schemasOf d) opId d.paths [] [] false).2.2.1)
          (removePaths (schemasOf d) opId d.paths [] [] false).2.1
      else midDoc d opId,
      (removePaths (schemasOf d) opId d.paths [] [] false).2.2.2) := by
  cases hrp : removePaths (schemasOf d) opId d.paths [] [] false with
  | mk paths' acc =>
    obtain ⟨dt, ur, del⟩ := acc
    simp only [deleteFunction, midDoc, hrp]
    cases del <;> simp

theorem deleteFunction_snd_iff (d : OpenAPIDocument) (opId : String) :
    (deleteFunction d opId).2 = true ↔
      ∃ p item, (p, item) ∈ d.paths ∧ ∃ m op,
        item.getM m = some op ∧ op.operationId = some opId := by
  rw [deleteFunction_eq]
  simp only
  rw [removePaths_del_iff d.paths [] [] false]
  simp

theorem deleteFunction_paths (d : OpenAPIDocument) (opId : String) :
    (deleteFunction d opId).1.paths = (midDoc d opId).paths := by
  rw [deleteFunction_eq]
  simp only
  by_cases h : (removePaths (schemasOf d) opId d.paths [] [] false).2.2.2 = true
  · simp only [h, if_true]
    rw [cleanupUnusedTags_paths, cleanupUnusedRefs_paths]
  · simp only [h, Bool.false_eq_true, if_false]

theorem deleteFunction_not_deleted (d : OpenAPIDocument) (opId : String)
    (h : (deleteFunction d opId).2 = false) : (deleteFunction d opId).1 = d := by
  rw [deleteFunction_eq] at h ⊢
  simp only at h ⊢
  have hnm : ∀ p item, (p, item) ∈ d.paths → ∀ m op, item.getM m = some op →
      op.operationId ≠ some opId := by
    intro p item hmem m op hop hid
    have : (removePaths (schemasOf d) opId d.paths [] [] false).2.2.2 = true :=
      (removePaths_del_iff d.paths [] [] false).mpr
        (Or.inr ⟨p, item, hmem, m, op, hop, hid⟩)
    rw [this] at h
    cases h
  have heq := @removePaths_no_match (schemasOf d) opId d.paths [] [] false hnm
  have h1 : (removePaths (schemasOf d) opId d.paths [] [] false).1 = d.paths := by
    rw [heq]
  rw [h]
  simp only [Bool.false_eq_true, if_false, midDoc, h1]

theorem schemasOf_cleanupUnusedRefs (d : OpenAPIDocument) (r : List String) :
    schemasOf (cleanupUnusedRefs d r) =
      deleteSchemas (schemasOf d) ((schemasOf d).map Prod.fst |>.filter
        (fun n => !(decide (n ∈ getAllUsedRefs d)))) := by
  simp only [cleanupUnusedRefs]
  cases hc : d.components with
  | none =>
    simp only [schemasOf, hc]
    rfl
  | some c =>
    cases hs : c.schemas with
    | none =>
      simp only [schemasOf, hc, hs, Option.getD_none, Option.map_none]
      rfl
    | some sl =>
      simp only [schemasOf, hc, hs, Option.getD_some, Option.map_some]
      rfl

theorem paramsOf_cleanupUnusedRefs (d : OpenAPIDocument) (r : List String) :
    paramsOf (cleanupUnusedRefs d r) =
      (paramsOf d).filter (fun e => decide (e.1 ∈ getAllUsedRefs d)) := by
  simp only [cleanupUnusedRefs]
  cases hc : d.components with
  | none => simp [paramsOf, hc]
  | some c =>
    cases hp : c.parameters with
    | none => simp [paramsOf, hc, hp]
    | some pl => simp [paramsOf, hc, hp]

theorem responsesOf_cleanupUnusedRefs (d : OpenAPIDocument) (r : List String) :
    responsesOf (cleanupUnusedRefs d r) =
      (responsesOf d).filter (fun e => decide (e.1 ∈ getAllUsedRefs d)) := by
  simp only [cleanupUnusedRefs]
  cases hc : d.components with
  | none => simp [responsesOf, hc]
  | some c =>
    cases hp : c.responses with
    | none => simp [responsesOf, hc, hp]
    | some pl => simp [responsesOf, hc, hp]

theorem requestBodiesOf_cleanupUnusedRefs (d : OpenAPIDocument) (r : List String) :
    requestBodiesOf (cleanupUnusedRefs d r) =
      (requestBodiesOf d).filter (fun e => decide (e.1 ∈ getAllUsedRefs d)) := by
  simp only [cleanupUnusedRefs]
  cases hc : d.components with
  | none => simp [requestBodiesOf, hc]
  | some c =>
    cases hp : c.requestBodies with
    | none => simp [requestBodiesOf, hc, hp]
    | some pl => simp [requestBodiesOf, hc, hp]

theorem schemasOf_cleanupUnusedTags (d : OpenAPIDocument) (t : List String) :
    schemasOf (cleanupUnusedTags d t) = schemasOf d := by
  simp only [schemasOf, cleanupUnusedTags_components]

theorem paramsOf_cleanupUnusedTags (d : OpenAPIDocument) (t : List String) :
    paramsOf (cleanupUnusedTags d t) = paramsOf d := by
  simp only [paramsOf, cleanupUnusedTags_components]

theorem responsesOf_cleanupUnusedTags (d : OpenAPIDocument) (t : List String) :
    responsesOf (cleanupUnusedTags d t) = responsesOf d := by
  simp only [responsesOf, cleanupUnusedTags_components]

theorem requestBodiesOf_cleanupUnusedTags (d : OpenAPIDocument) (t : List String) :
    requestBodiesOf (cleanupUnusedTags d t) = requestBodiesOf d := by
  simp only [requestBodiesOf, cleanupUnusedTags_components]

/-- Pool characterization of the delete result: either nothing was deleted
and the document is unchanged, or the pools are the cleanup of the
mid-state document. -/
theorem deleteFunction_schemas (d : OpenAPIDocument) (opId : String)
    (h : (deleteFunction d opId).2 = true) :
    schemasOf (deleteFunction d opId).1 =
      deleteSchemas (schemasOf d) ((schemasOf d).map Prod.fst |>.filter
        (fun n => !(decide (n ∈ getAllUsedRefs (midDoc d opId))))) := by
  rw [deleteFunction_eq] at h ⊢
  simp only at h ⊢
  rw [h]
  simp only [if_true]
  rw [schemasOf_cleanupUnusedTags, schemasOf_cleanupUnusedRefs, schemasOf_midDoc]

theorem deleteFunction_params (d : OpenAPIDocument) (opId : String)
    (h : (deleteFunction d opId).2 = true) :
    paramsOf (deleteFunction d opId).1 =
      (paramsOf d).filter (fun e => decide (e.1 ∈ getAllUsedRefs (midDoc d opId))) := by
  rw [deleteFunction_eq] at h ⊢
  simp only at h ⊢
  rw [h]
  simp only [if_true]
  rw [paramsOf_cleanupUnusedTags, paramsOf_cleanupUnusedRefs]
  rfl

theorem deleteFunction_responses (d : OpenAPIDocument) (opId : String)
    (h : (deleteFunction d opId).2 = true) :
    responsesOf (deleteFunction d opId).1 =
      (responsesOf d).filter (fun e => decide (e.1 ∈ getAllUsedRefs (midDoc d opId))) := by
  rw [deleteFunction_eq] at h ⊢
  simp only at h ⊢
  rw [h]
  simp only [if_true]
  rw [responsesOf_cleanupUnusedTags, responsesOf_cleanupUnusedRefs]
  rfl

theorem deleteFunction_requestBodies (d : OpenAPIDocument) (opId : String)
    (h : (deleteFunction d opId).2 = true) :
    requestBodiesOf (deleteFunction d opId).1 =
      (requestBodiesOf d).filter (fun e => decide (e.1 ∈ getAllUsedRefs (midDoc d opId))) := by
  rw [deleteFunction_eq] at h ⊢
  simp only at h ⊢
  rw [h]
  simp only [if_true]
  rw [requestBodiesOf_cleanupUnusedTags, requestBodiesOf_cleanupUnusedRefs]
  rfl

theorem deleteFunction_keeps_used_schema {d : OpenAPIDocument} {opId n : String}
    {b : Schema} (hused : n ∈ getAllUsedRefs (midDoc d opId))
    (hb : lookupName (schemasOf d) n = some b) :
    lookupName (schemasOf (deleteFunction d opId).1) n = some b := by
  cases hflag : (deleteFunction d opId).2 with
  | false => rw [deleteFunction_not_deleted d opId hflag]; exact hb
  | true =>
    rw [deleteFunction_schemas d opId hflag]
    rw [deleteSchemas_preserves]
    · exact hb
    · intro hmem
      have := List.mem_filter.mp hmem
      simp only [hused] at this
      simpa using this.2

theorem deleteFunction_keeps_used_param {d : OpenAPIDocument} {opId n : String}
    {par : Parameter} (hused : n ∈ getAllUsedRefs (midDoc d opId))
    (hb : (n, par) ∈ paramsOf d) :
    (n, par) ∈ paramsOf (deleteFunction d opId).1 := by
  cases hflag : (deleteFunction d opId).2 with
  | false => rw [deleteFunction_not_deleted d opId hflag]; exact hb
  | true =>
    rw [deleteFunction_params d opId hflag]
    exact List.mem_filter.mpr ⟨hb, by simpa using hused⟩

theorem deleteFunction_keeps_used_response {d : OpenAPIDocument} {opId n : String}
    {resp : Response} (hused : n ∈ getAllUsedRefs (midDoc d opId))
    (hb : (n, resp) ∈ responsesOf d) :
    (n, resp) ∈ responsesOf (deleteFunction d opId).1 := by
  cases hflag : (deleteFunction d opId).2 with
  | false => rw [deleteFunction_not_deleted d opId hflag]; exact hb
  | true =>
    rw [deleteFunction_responses d opId hflag]
    exact List.mem_filter.mpr ⟨hb, by simpa using hused⟩

theorem deleteFunction_keeps_used_requestBody {d : OpenAPIDocument} {opId n : String}
    {rb : RequestBody} (hused : n ∈ getAllUsedRefs (midDoc d opId))
    (hb : (n, rb) ∈ requestBodiesOf d) :
    (n, rb) ∈ requestBodiesOf (deleteFunction d opId).1 := by
  cases hflag : (deleteFunction d opId).2 with
  | false => rw [deleteFunction_not_deleted d opId hflag]; exact hb
  | true =>
    rw [deleteFunction_requestBodies d opId hflag]
    exact List.mem_filter.mpr ⟨hb, by simpa using hused⟩

theorem mem_paramsOf {d : OpenAPIDocument} {pn : String} {par : Parameter}
    (h : (pn, par) ∈ paramsOf d) :
    ∃ c pl, d.components = some c ∧ c.parameters = some pl ∧ (pn, par) ∈ pl := by
  cases hc : d.components with
  | none => simp [paramsOf, hc] at h
  | some c =>
    simp only [paramsOf, hc] at h
    cases hp : c.parameters with
    | none => simp [hp] at h
    | some pl =>
      rw [hp] at h
      exact ⟨c, pl, rfl, hp, by simpa using h⟩

theorem mem_responsesOf {d : OpenAPIDocument} {rn : String} {resp : Response}
    (h : (rn, resp) ∈ responsesOf d) :
    ∃ c rl, d.components = some c ∧ c.responses = some rl ∧ (rn, resp) ∈ rl := by
  cases hc : d.components with
  | none => simp [responsesOf, hc] at h
  | some c =>
    simp only [responsesOf, hc] at h
    cases hp : c.responses with
    | none => simp [hp] at h
    | some rl =>
      rw [hp] at h
      exact ⟨c, rl, rfl, hp, by simpa using h⟩

theorem mem_requestBodiesOf {d : OpenAPIDocument} {rn : String} {rb : RequestBody}
    (h : (rn, rb) ∈ requestBodiesOf d) :
    ∃ c rl, d.components = some c ∧ c.requestBodies = some rl ∧ (rn, rb) ∈ rl := by
  cases hc : d.components with
  | none => simp [requestBodiesOf, hc] at h
  | some c =>
    simp only [requestBodiesOf, hc] at h
    cases hp : c.requestBodies with
    | none => simp [hp] at h
    | some rl =>
      rw [hp] at h
      exact ⟨c, rl, rfl, hp, by simpa using h⟩

/-- The component pools of the delete result are sub-collections of the
original pools. -/
theorem deleteFunction_params_sub {d : OpenAPIDocument} {opId pn : String}
    {par : Parameter} (h : (pn, par) ∈ paramsOf (deleteFunction d opId).1) :
    (pn, par) ∈ paramsOf d := by
  cases hflag : (deleteFunction d opId).2 with
  | false => rw [deleteFunction_not_deleted d opId hflag] at h; exact h
  | true =>
    rw [deleteFunction_params d opId hflag] at h
    exact (List.mem_filter.mp h).1

theorem deleteFunction_responses_sub {d : OpenAPIDocument} {opId rn : String}
    {resp : Response} (h : (rn, resp) ∈ responsesOf (deleteFunction d opId).1) :
    (rn, resp) ∈ responsesOf d := by
  cases hflag : (deleteFunction d opId).2 with
  | false => rw [deleteFunction_not_deleted d opId hflag] at h; exact h
  | true =>
    rw [deleteFunction_responses d opId hflag] at h
    exact (List.mem_filter.mp h).1

theorem deleteFunction_requestBodies_sub {d : OpenAPIDocument} {opId rn : String}
    {rb : RequestBody} (h : (rn, rb) ∈ requestBodiesOf (deleteFunction d opId).1) :
    (rn, rb) ∈ requestBodiesOf d := by
  cases hflag : (deleteFunction d opId).2 with
  | false => rw [deleteFunction_not_deleted d opId hflag] at h; exact h
  | true =>
    rw [deleteFunction_requestBodies d opId hflag] at h
    exact (List.mem_filter.mp h).1

/-- The claim's notion of a live component name: referenced (through the
component pool) by a surviving operation, or by a surviving reusable
parameter, request body, or response. -/
def ReferencedBySurvivor (d : OpenAPIDocument) (opId n : String) : Prop :=
  (∃ p item m op, (p, item) ∈ (deleteFunction d opId).1.paths ∧
      item.getM m = some op ∧ n ∈ collectRefs (schemasOf d) op []) ∨
  (∃ pn par s, (pn, par) ∈ paramsOf (deleteFunction d opId).1 ∧
      par.schema = some s ∧ n ∈ collectSchemaRefs (schemasOf d) s []) ∨
  (∃ rn rb, (rn, rb) ∈ requestBodiesOf (deleteFunction d opId).1 ∧
      n ∈ contentRefs (schemasOf d) rb.content []) ∨
  (∃ rn resp cs, (rn, resp) ∈ responsesOf (deleteFunction d opId).1 ∧
      resp.content = some cs ∧ n ∈ contentRefs (schemasOf d) cs [])

/-- A name referenced by a survivor is in the liveness set of the mid-state
document. -/
theorem referencedBySurvivor_mem_used {d : OpenAPIDocument} {opId n : String}
    (h : ReferencedBySurvivor d opId n) : n ∈ getAllUsedRefs (midDoc d opId) := by
  rcases h with ⟨p, item, m, op, hmem, hop, hn⟩ |
    ⟨pn, par, s, hmem, hs, hn⟩ | ⟨rn, rb, hmem, hn⟩ | ⟨rn, resp, cs, hmem, hcs, hn⟩
  · rw [deleteFunction_paths] at hmem
    exact mem_getAllUsedRefs_of_op hmem hop hn
  · obtain ⟨c, pl, hc, hpl, hin⟩ := mem_paramsOf (deleteFunction_params_sub hmem)
    exact mem_getAllUsedRefs_of_compParam
      (show (midDoc d opId).components = some c from hc) hpl hin hs hn
  · obtain ⟨c, rl, hc, hrl, hin⟩ :=
      mem_requestBodiesOf (deleteFunction_requestBodies_sub hmem)
    exact mem_getAllUsedRefs_of_compRequestBody
      (show (midDoc d opId).components = some c from hc) hrl hin hn
  · obtain ⟨c, rl, hc, hrl, hin⟩ := mem_responsesOf (deleteFunction_responses_sub hmem)
    exact mem_getAllUsedRefs_of_compResponse
      (show (midDoc d opId).components = some c from hc) hrl hin hcs hn

/-! ### Claim theorems -/

/-- A reference node pointing at pool schema `n`. -/
def refTo (n : String) : Schema :=
  .mk (some ("#/components/schemas/" ++ n)) none .nil none .nil .nil .nil

/-- A plain inline schema with no references. -/
def plainSchema : Schema :=
  .mk none none .nil none .nil .nil .nil

/-- A path item with every field absent. -/
def emptyItem : PathItem :=
  ⟨none, none, none, none, none, none, none, none, none⟩

/-- An operation returning the given schema in its 200 response. -/
def opRet (id : String) (tags : List String) (s : Schema) : Operation :=
  { operationId := some id, tags := tags, parameters := none, requestBody := none,
    responses := [("200", { content := some [("application/json", { schema := some s })] })] }

/-- C1: every component-pool entry (schema, parameter, response, or request
body) that is referenced by a surviving operation, reusable parameter,
reusable response, or reusable request body is still present in the pool
after `deleteFunction` — the cleanup never deletes it. -/
theorem claim_C1 (d : OpenAPIDocument) (opId n : String)
    (href : ReferencedBySurvivor d opId n) :
    (n ∈ schemaKeys d → n ∈ schemaKeys (deleteFunction d opId).1) ∧
    (∀ par, (n, par) ∈ paramsOf d → (n, par) ∈ paramsOf (deleteFunction d opId).1) ∧
    (∀ resp, (n, resp) ∈ responsesOf d → (n, resp) ∈ responsesOf (deleteFunction d opId).1) ∧
    (∀ rb, (n, rb) ∈ requestBodiesOf d → (n, rb) ∈ requestBodiesOf (deleteFunction d opId).1) := by
  have hused := referencedBySurvivor_mem_used href
  refine ⟨?_, ?_, ?_, ?_⟩
  · intro hk
    obtain ⟨b, hb⟩ := mem_keys_lookupName hk
    exact lookupName_mem_keys (deleteFunction_keeps_used_schema hused hb)
  · intro par h
    exact deleteFunction_keeps_used_param hused h
  · intro resp h
    exact deleteFunction_keeps_used_response hused h
  · intro rb h
    exact deleteFunction_keeps_used_requestBody hused h

def docC1 : OpenAPIDocument :=
  { paths := [("/a", { emptyItem with get := some (opRet "a" [] (refTo "S")) }),
              ("/b", { emptyItem with post := some (opRet "b" [] (refTo "S")) })],
    components := some { schemas := some [("S", plainSchema)],
                         parameters := none, responses := none, requestBodies := none },
    tags := none }

theorem claim_C1_witness : "S" ∈ schemaKeys (deleteFunction docC1 "a").1 :=
  (claim_C1 docC1 "a" "S"
    (Or.inl ⟨"/b", { emptyItem with post := some (opRet "b" [] (refTo "S")) },
      .post, opRet "b" [] (refTo "S"),
      List.mem_cons_self _ _, rfl, by decide⟩)).1 (by decide)

/-- C3: `deleteFunction` returns `true` exactly when some operation in the
path table carries the requested `operationId`; on `false` the document is
returned structurally unchanged. -/
theorem claim_C3 (d : OpenAPIDocument) (opId : String) :
    ((deleteFunction d opId).2 = true ↔
      ∃ p item, (p, item) ∈ d.paths ∧ ∃ m op,
        item.getM m = some op ∧ op.operationId = some opId) ∧
    ((deleteFunction d opId).2 = false → (deleteFunction d opId).1 = d) := by
  constructor
  · exact deleteFunction_snd_iff d opId
  · exact deleteFunction_not_deleted d opId

theorem claim_C3_witness : (deleteFunction docC1 "nothere").1 = docC1 :=
  (claim_C3 docC1 "nothere").2 (by decide)

/-- C6: the reference collector's recursion terminates — in the fuel
embedding, every fuel at least the explicit bound computes the same value
as the canonical call `collectSchemaRefs`, including on cyclic pools, since
each name is expanded at most once per call through the `visited` set. -/
theorem claim_C6 (pool : List (String × Schema)) (s : Schema) (refs : List String)
    (f : Nat) (hf : collectBound pool (.one s) [] ≤ f) :
    (collectGo pool f (.one s) ⟨refs, []⟩).refs = collectSchemaRefs pool s refs := by
  unfold collectSchemaRefs
  rw [collectGo_stable pool f (topFuel pool s) (.one s) ⟨refs, []⟩ hf
    (topFuel_ge_bound pool s)]

def cyclicPool : List (String × Schema) :=
  [("A", refTo "B"), ("B", refTo "A")]

theorem claim_C6_witness :
    collectBound cyclicPool (.one (refTo "A")) [] ≤ 60 ∧
    (collectGo cyclicPool 60 (.one (refTo "A")) ⟨[], []⟩).refs =
      collectSchemaRefs cyclicPool (refTo "A") [] :=
  ⟨by decide, claim_C6 cyclicPool (refTo "A") [] 60 (by decide)⟩

/-- C9: a dangling reference (no pool entry for the extracted name) is
recorded in the accumulator, is not expanded further, and raises no error:
the collector returns the closed-form state. -/
theorem claim_C9 (pool : List (String × Schema)) (fuel : Nat) (r : String)
    (items : Option Schema) (props : PropList) (addProps : Option (Bool ⊕ Schema))
    (allOf oneOf anyOf : SchemaList) (st : CState)
    (hr : r ≠ "") (hlk : lookupName pool (extractRefName r) = none) :
    collectGo pool (fuel + 1)
        (.one (.mk (some r) items props addProps allOf oneOf anyOf)) st =
      ⟨insertName (extractRefName r) st.refs,
        if extractRefName r ∈ st.visited then st.visited
        else insertName (extractRefName r) st.visited⟩ ∧
    extractRefName r ∈ (collectGo pool (fuel + 1)
        (.one (.mk (some r) items props addProps allOf oneOf anyOf)) st).refs := by
  have htr : truthyRef (some r) = some r := by simp [truthyRef, hr]
  have heq : collectGo pool (fuel + 1)
      (.one (.mk (some r) items props addProps allOf oneOf anyOf)) st =
      ⟨insertName (extractRefName r) st.refs,
        if extractRefName r ∈ st.visited then st.visited
        else insertName (extractRefName r) st.visited⟩ := by
    rw [collectGo_one_ref pool fuel items props addProps allOf oneOf anyOf htr st]
    by_cases hv : extractRefName r ∈ st.visited
    · simp [hv]
    · simp only [hv, if_false, hlk]
  refine ⟨heq, ?_⟩
  rw [heq]
  exact self_mem_insertName _ _

theorem claim_C9_witness :
    ("#/components/schemas/Gone" : String) ≠ "" ∧
    (lookupName cyclicPool (extractRefName "#/components/schemas/Gone")).isNone = true ∧
    extractRefName "#/components/schemas/Gone" ∈
      (collectGo cyclicPool 5 (.one (.mk (some "#/components/schemas/Gone")
        none .nil none .nil .nil .nil)) ⟨[], []⟩).refs :=
  ⟨by decide, by decide,
    (claim_C9 cyclicPool 4 "#/components/schemas/Gone" none .nil none .nil .nil .nil
      ⟨[], []⟩ (by decide) (Option.isNone_iff_eq_none.mp (by decide))).2⟩

/-- C10: the liveness scan walks path-level parameters of every path item,
so a pool schema referenced only from a surviving path item's path-level
parameter schemas is live and survives `deleteFunction`. -/
theorem claim_C10 (d : OpenAPIDocument) (opId : String) (p : String) (item : PathItem)
    (ps : List Parameter) (par : Parameter) (s : Schema) (n : String)
    (hp : (p, item) ∈ d.paths) (hps : item.parameters = some ps) (hpar : par ∈ ps)
    (hs : par.schema = some s) (hn : n ∈ collectSchemaRefs (schemasOf d) s []) :
    n ∈ getAllUsedRefs (midDoc d opId) ∧
    (n ∈ schemaKeys d → n ∈ schemaKeys (deleteFunction d opId).1) := by
  have hitem' : ((removeMethods (schemasOf d) opId methodsOrder item [] [] false).1).parameters
      = some ps := by
    rw [removeMethods_parameters]
    exact hps
  have hkc : ¬((removeMethods (schemasOf d) opId methodsOrder item [] [] false).2.2.2 = true ∧
      (removeMethods (schemasOf d) opId methodsOrder item [] [] false).1.keyCount = 0) := by
    rintro ⟨_, hkc0⟩
    have := keyCount_pos_of_parameters hitem'
    omega
  have hkeep := removePaths_keep d.paths [] [] false p item hp hkc
  have hmemMid : (p, (removeMethods (schemasOf d) opId methodsOrder item [] [] false).1) ∈
      (midDoc d opId).paths := hkeep
  have hused : n ∈ getAllUsedRefs (midDoc d opId) :=
    mem_getAllUsedRefs_of_pathParam hmemMid hitem' hpar hs hn
  refine ⟨hused, ?_⟩
  intro hk
  obtain ⟨b, hb⟩ := mem_keys_lookupName hk
  exact lookupName_mem_keys (deleteFunction_keeps_used_schema hused hb)

def docC10 : OpenAPIDocument :=
  { paths := [("/x", { emptyItem with
      get := some (opRet "a" [] plainSchema),
      parameters := some [{ schema := some (refTo "P") }] })],
    components := some { schemas := some [("P", plainSchema)],
                         parameters := none, responses := none, requestBodies := none },
    tags := none }

theorem claim_C10_witness : "P" ∈ schemaKeys (deleteFunction docC10 "a").1 :=
  (claim_C10 docC10 "a" "/x"
    { emptyItem with
      get := some (opRet "a" [] plainSchema),
      parameters := some [{ schema := some (refTo "P") }] }
    [{ schema := some (refTo "P") }] { schema := some (refTo "P") } (refTo "P") "P"
    (List.mem_cons_self _ _) rfl (List.mem_cons_self _ _) rfl (by decide)).2 (by decide)

/-- C7: two pool schemas that directly reference each other and are dead
after the removal (reachable only from the deleted operation) survive the
dependency-ordered sweep — the cycle blocks each member's per-pass deletion
condition, and the loop terminates leaving both present. -/
theorem claim_C7 (d : OpenAPIDocument) (opId P Q : String) (bP bQ : Schema)
    (hbP : lookupName (schemasOf d) P = some bP)
    (hbQ : lookupName (schemasOf d) Q = some bQ)
    (hdP : Q ∈ schemaDirectRefs bP) (hdQ : P ∈ schemaDirectRefs bQ)
    (hPd : P ∉ getAllUsedRefs (midDoc d opId))
    (hQd : Q ∉ getAllUsedRefs (midDoc d opId)) :
    P ∈ schemaKeys (deleteFunction d opId).1 ∧ Q ∈ schemaKeys (deleteFunction d opId).1 := by
  cases hflag : (deleteFunction d opId).2 with
  | false =>
    rw [deleteFunction_not_deleted d opId hflag]
    exact ⟨lookupName_mem_keys hbP, lookupName_mem_keys hbQ⟩
  | true =>
    have hsch := deleteFunction_schemas d opId hflag
    have hPc : P ∈ ((schemasOf d).map Prod.fst).filter
        (fun n => !(decide (n ∈ getAllUsedRefs (midDoc d opId)))) :=
      List.mem_filter.mpr ⟨lookupName_mem_keys hbP, by simpa using hPd⟩
    have hQc : Q ∈ ((schemasOf d).map Prod.fst).filter
        (fun n => !(decide (n ∈ getAllUsedRefs (midDoc d opId)))) :=
      List.mem_filter.mpr ⟨lookupName_mem_keys hbQ, by simpa using hQd⟩
    have hkeep := deleteSchemasLoop_keeps_cycle hdP hdQ
      ((((schemasOf d).map Prod.fst).filter
        (fun n => !(decide (n ∈ getAllUsedRefs (midDoc d opId))))).length + 1)
      (schemasOf d)
      (((schemasOf d).map Prod.fst).filter
        (fun n => !(decide (n ∈ getAllUsedRefs (midDoc d opId)))))
      hbP hbQ hPc hQc
    constructor
    · simp only [schemaKeys]
      rw [hsch]
      exact lookupName_mem_keys hkeep.1
    · simp only [schemaKeys]
      rw [hsch]
      exact lookupName_mem_keys hkeep.2

def docC7 : OpenAPIDocument :=
  { paths := [("/a", { emptyItem with get := some (opRet "a" [] (refTo "P")) })],
    components := some { schemas := some [("P", refTo "Q"), ("Q", refTo "P")],
                         parameters := none, responses := none, requestBodies := none },
    tags := none }

theorem claim_C7_witness :
    "P" ∈ schemaKeys (deleteFunction docC7 "a").1 ∧
    "Q" ∈ schemaKeys (deleteFunction docC7 "a").1 :=
  claim_C7 docC7 "a" "P" "Q" (refTo "Q") (refTo "P")
    rfl rfl (by decide) (by decide) (by decide) (by decide)

def docC4 : OpenAPIDocument :=
  { paths := [("/a", { emptyItem with get := some (opRet "dup" [] plainSchema) }),
              ("/b", { emptyItem with get := some (opRet "dup" [] plainSchema) }),
              ("/c", { emptyItem with get := some (opRet "keep" [] plainSchema) })],
    components := none, tags := none }

/-- C4 fails on the code: `deleteFunction` has no early exit, so a single
call removes every operation whose `operationId` matches, not only the
first in path/method enumeration order.  In `docC4` the operations at
`/a.get` and `/b.get` both carry id `"dup"`; the claim asserts the `/b`
operation is left in place, but one call removes both paths. -/
theorem claim_C4_counterexample :
    (docC4.paths.map Prod.fst = ["/a", "/b", "/c"]) ∧
    ((lookupName docC4.paths "/a").bind (fun it => it.get.bind
      (fun op => op.operationId)) = some "dup") ∧
    ((lookupName docC4.paths "/b").bind (fun it => it.get.bind
      (fun op => op.operationId)) = some "dup") ∧
    ((deleteFunction docC4 "dup").1.paths.map Prod.fst = ["/c"]) :=
  ⟨by decide, by decide, by decide, by decide⟩

/-- C4 (amended): one `deleteFunction` call removes every operation whose
`operationId` matches — afterwards no surviving operation carries the id —
while every non-matching operation survives in place. -/
theorem claim_C4_amended (d : OpenAPIDocument) (opId : String) :
    (∀ p item', (p, item') ∈ (deleteFunction d opId).1.paths →
      ∀ m op, item'.getM m = some op → op.operationId ≠ some opId) ∧
    (∀ p item m op, (p, item) ∈ d.paths → item.getM m = some op →
      op.operationId ≠ some opId →
      ∃ item', (p, item') ∈ (deleteFunction d opId).1.paths ∧
        item'.getM m = some op) := by
  constructor
  · intro p item' hmem m op hop
    rw [deleteFunction_paths] at hmem
    simp only [midDoc] at hmem
    exact removePaths_no_matching_survivor d.paths [] [] false p item' hmem m op hop
  · intro p item m op hmem hop hne
    obtain ⟨item', hmem', hop', _⟩ :=
      @removePaths_survivor (schemasOf d) opId d.paths [] [] false p item m op hmem hop hne
    refine ⟨item', ?_, hop'⟩
    rw [deleteFunction_paths]
    exact hmem'

theorem claim_C4_amended_witness :
    ∃ item', ("/c", item') ∈ (deleteFunction docC4 "dup").1.paths ∧
      item'.getM .get = some (opRet "keep" [] plainSchema) :=
  (claim_C4_amended docC4 "dup").2 "/c"
    { emptyItem with get := some (opRet "keep" [] plainSchema) } .get
    (opRet "keep" [] plainSchema)
    (by
      right
      right
      exact List.mem_cons_self _ _)
    rfl (by decide)

def docC5 : OpenAPIDocument :=
  { paths := [("/x", { emptyItem with
      get := some (opRet "a" [] plainSchema),
      parameters := some [] })],
    components := none, tags := none }

/-- C5 fails on the code: path-entry removal checks
`Object.keys(pathItem).length === 0`, which counts the path-level
`parameters` field.  In `docC5` the only method of `/x` is removed, leaving
no methods at all, yet the path entry survives because the item still has
its `parameters` key. -/
theorem claim_C5_counterexample :
    ((deleteFunction docC5 "a").2 = true) ∧
    ((deleteFunction docC5 "a").1.paths =
      [("/x", { emptyItem with parameters := some [] })]) ∧
    (∀ m, ({ emptyItem with parameters := some [] } : PathItem).getM m = none) :=
  ⟨by decide, by rfl, by intro m; cases m <;> rfl⟩

/-- C5 (amended): after processing a path item's method slots, the path
entry is removed exactly when the item object is left with no keys at all —
no methods and no path-level `parameters` field; when any key remains
(another method, or path-level parameters) the entry is kept with the
processed item. -/
theorem claim_C5_amended (d : OpenAPIDocument) (opId p : String) (item : PathItem)
    (hnd : (d.paths.map Prod.fst).Nodup) (hmem : (p, item) ∈ d.paths) :
    ((removeMethods (schemasOf d) opId methodsOrder item [] [] false).2.2.2 = true →
      (removeMethods (schemasOf d) opId methodsOrder item [] [] false).1.keyCount = 0 →
      p ∉ (deleteFunction d opId).1.paths.map Prod.fst) ∧
    (¬((removeMethods (schemasOf d) opId methodsOrder item [] [] false).2.2.2 = true ∧
        (removeMethods (schemasOf d) opId methodsOrder item [] [] false).1.keyCount = 0) →
      (p, (removeMethods (schemasOf d) opId methodsOrder item [] [] false).1) ∈
        (deleteFunction d opId).1.paths) := by
  constructor
  · intro hdel hkc
    rw [deleteFunction_paths]
    simp only [midDoc]
    exact removePaths_drop d.paths [] [] false p item hnd hmem hdel hkc
  · intro hkeep
    rw [deleteFunction_paths]
    simp only [midDoc]
    exact removePaths_keep d.paths [] [] false p item hmem hkeep

def docC5b : OpenAPIDocument :=
  { paths := [("/y", { emptyItem with get := some (opRet "a" [] plainSchema) })],
    components := none, tags := none }

theorem claim_C5_amended_witness :
    "/y" ∉ (deleteFunction docC5b "a").1.paths.map Prod.fst :=
  (claim_C5_amended docC5b "a" "/y"
    { emptyItem with get := some (opRet "a" [] plainSchema) }
    (by decide) (List.mem_cons_self _ _)).1 (by decide) (by decide)


/-- The tag names collected from the removed operations — the `deletedTags`
set built by `deleteFunction` during the removal phase. -/
def deletedTagsOf (d : OpenAPIDocument) (opId : String) : List String :=
  (removePaths (schemasOf d) opId d.paths [] [] false).2.1

/-- `cleanupUnusedTags` leaves the tag list alone when the deleted-tag set
is empty or the document has no (or an empty) tag list. -/
theorem cleanupUnusedTags_tags_unchanged (d : OpenAPIDocument) (T : List String)
    (h : T = [] ∨ d.tags = none ∨ d.tags = some []) :
    (cleanupUnusedTags d T).tags = d.tags := by
  simp only [cleanupUnusedTags]
  rcases h with hT | hnone | hemp
  · cases htag : d.tags with
    | none => exact htag
    | some tl =>
      have hc : (tl.isEmpty || T.isEmpty) = true := by simp [hT]
      simp only [hc, if_true]
      exact htag
  · simp only [hnone]
  · simp only [hemp, List.isEmpty_nil, Bool.true_or, if_true]

/-- `cleanupUnusedTags` in the active case: with a nonempty tag list and a
nonempty deleted-tag set, the surviving list is the filter keeping a tag
whose name is not among the deleted tags or is still used by an operation;
the whole list is dropped when the filter is empty. -/
theorem cleanupUnusedTags_tags_filter (d : OpenAPIDocument) (T : List String)
    (tl : List Tag) (htl : d.tags = some tl) (h1 : tl ≠ []) (h2 : T ≠ []) :
    ((tl.filter (fun t => !(decide (t.name ∈ T)) ||
        decide (t.name ∈ usedTagsOf d.paths))) = [] →
      (cleanupUnusedTags d T).tags = none) ∧
    ((tl.filter (fun t => !(decide (t.name ∈ T)) ||
        decide (t.name ∈ usedTagsOf d.paths))) ≠ [] →
      (cleanupUnusedTags d T).tags =
        some (tl.filter (fun t => !(decide (t.name ∈ T)) ||
          decide (t.name ∈ usedTagsOf d.paths)))) := by
  have e1 : tl.isEmpty = false := by simp [List.isEmpty_iff, h1]
  have e2 : T.isEmpty = false := by simp [List.isEmpty_iff, h2]
  constructor
  · intro hf
    simp only [cleanupUnusedTags, htl, e1, e2, Bool.or_self, Bool.false_eq_true, if_false]
    simp [List.isEmpty_iff, hf]
  · intro hf
    simp only [cleanupUnusedTags, htl, e1, e2, Bool.or_self, Bool.false_eq_true, if_false]
    simp [List.isEmpty_iff, hf]

/-- C8: after `deleteFunction` removes an operation, with `T` the set of
tag names of the removed operations: if `T` is empty or the document has no
(or an empty) tag list, the tag list is untouched; otherwise the surviving
list keeps a tag exactly when its name is not in `T` or is still used by a
surviving operation, and the tag list is removed from the document entirely
when that filter is empty. -/
theorem claim_C8 (d : OpenAPIDocument) (opId : String)
    (hdel : (deleteFunction d opId).2 = true) :
    ((deletedTagsOf d opId = [] ∨ d.tags = none ∨ d.tags = some []) →
      (deleteFunction d opId).1.tags = d.tags) ∧
    (∀ tl, d.tags = some tl → tl ≠ [] → deletedTagsOf d opId ≠ [] →
      (((tl.filter (fun t => !(decide (t.name ∈ deletedTagsOf d opId)) ||
            decide (t.name ∈ usedTagsOf (deleteFunction d opId).1.paths))) = [] →
          (deleteFunction d opId).1.tags = none) ∧
       ((tl.filter (fun t => !(decide (t.name ∈ deletedTagsOf d opId)) ||
            decide (t.name ∈ usedTagsOf (deleteFunction d opId).1.paths))) ≠ [] →
          (deleteFunction d opId).1.tags =
            some (tl.filter (fun t => !(decide (t.name ∈ deletedTagsOf d opId)) ||
              decide (t.name ∈ usedTagsOf (deleteFunction d opId).1.paths)))) ∧
       (∀ t ∈ tl, (t ∈ ((deleteFunction d opId).1.tags).getD [] ↔
          (t.name ∉ deletedTagsOf d opId ∨
           t.name ∈ usedTagsOf (deleteFunction d opId).1.paths))))) := by
  have hflag : (removePaths (schemasOf d) opId d.paths [] [] false).2.2.2 = true := by
    rw [deleteFunction_eq] at hdel
    exact hdel
  have hres : (deleteFunction d opId).1 =
      cleanupUnusedTags
        (cleanupUnusedRefs (midDoc d opId)
          (removePaths (schemasOf d) opId d.paths [] [] false).2.2.1)
        (deletedTagsOf d opId) := by
    rw [deleteFunction_eq]
    simp [hflag, deletedTagsOf]
  have hd2tags : (cleanupUnusedRefs (midDoc d opId)
      (removePaths (schemasOf d) opId d.paths [] [] false).2.2.1).tags = d.tags := by
    rw [cleanupUnusedRefs_tags, midDoc_tags]
  have hrespaths : (deleteFunction d opId).1.paths =
      (cleanupUnusedRefs (midDoc d opId)
        (removePaths (schemasOf d) opId d.paths [] [] false).2.2.1).paths := by
    rw [hres, cleanupUnusedTags_paths]
  constructor
  · intro hcase
    rw [hres, cleanupUnusedTags_tags_unchanged]
    · exact hd2tags
    · rcases hcase with hT | hnone | hemp
      · exact Or.inl hT
      · exact Or.inr (Or.inl (hd2tags.trans hnone))
      · exact Or.inr (Or.inr (hd2tags.trans hemp))
  · intro tl htl h1 h2
    have hkey := cleanupUnusedTags_tags_filter
      (cleanupUnusedRefs (midDoc d opId)
        (removePaths (schemasOf d) opId d.paths [] [] false).2.2.1)
      (deletedTagsOf d opId) tl (hd2tags.trans htl) h1 h2
    refine ⟨?_, ?_, ?_⟩
    · intro hf
      rw [hrespaths] at hf
      rw [hres]
      exact hkey.1 hf
    · intro hf
      rw [hrespaths] at hf ⊢
      rw [hres]
      exact hkey.2 hf
    · intro t ht
      rw [hrespaths]
      by_cases hf : (tl.filter (fun t => !(decide (t.name ∈ deletedTagsOf d opId)) ||
          decide (t.name ∈ usedTagsOf (cleanupUnusedRefs (midDoc d opId)
            (removePaths (schemasOf d) opId d.paths [] [] false).2.2.1).paths))) = []
      · have htags : (deleteFunction d opId).1.tags = none := by
          rw [hres]
          exact hkey.1 hf
        rw [htags]
        have hpt := List.filter_eq_nil_iff.mp hf t ht
        simp only [Bool.or_eq_true, Bool.not_eq_true', decide_eq_false_iff_not,
          decide_eq_true_eq, not_or, not_not] at hpt
        simp [not_or, hpt.1, hpt.2]
      · have htags : (deleteFunction d opId).1.tags =
            some (tl.filter (fun t => !(decide (t.name ∈ deletedTagsOf d opId)) ||
              decide (t.name ∈ usedTagsOf (cleanupUnusedRefs (midDoc d opId)
                (removePaths (schemasOf d) opId d.paths [] [] false).2.2.1).paths))) := by
          rw [hres]
          exact hkey.2 hf
        rw [htags]
        simp only [Option.getD_some, List.mem_filter, ht, true_and, Bool.or_eq_true,
          Bool.not_eq_true', decide_eq_false_iff_not, decide_eq_true_eq]

def docC8 : OpenAPIDocument :=
  { paths := [("/x", { emptyItem with get := some (opRet "a" ["t1"] plainSchema) }),
              ("/y", { emptyItem with get := some (opRet "b" ["t2"] plainSchema) })],
    components := none,
    tags := some [{ name := "t1" }, { name := "t2" }] }

theorem claim_C8_witness :
    (deleteFunction docC8 "a").2 = true ∧
    (((deletedTagsOf docC8 "a" = [] ∨ docC8.tags = none ∨ docC8.tags = some []) →
        (deleteFunction docC8 "a").1.tags = docC8.tags) ∧
     (∀ tl, docC8.tags = some tl → tl ≠ [] → deletedTagsOf docC8 "a" ≠ [] →
       (((tl.filter (fun t => !(decide (t.name ∈ deletedTagsOf docC8 "a")) ||
             decide (t.name ∈ usedTagsOf (deleteFunction docC8 "a").1.paths))) = [] →
           (deleteFunction docC8 "a").1.tags = none) ∧
        ((tl.filter (fun t => !(decide (t.name ∈ deletedTagsOf docC8 "a")) ||
             decide (t.name ∈ usedTagsOf (deleteFunction docC8 "a").1.paths))) ≠ [] →
           (deleteFunction docC8 "a").1.tags =
             some (tl.filter (fun t => !(decide (t.name ∈ deletedTagsOf docC8 "a")) ||
               decide (t.name ∈ usedTagsOf (deleteFunction docC8 "a").1.paths)))) ∧
        (∀ t ∈ tl, (t ∈ ((deleteFunction docC8 "a").1.tags).getD [] ↔
           (t.name ∉ deletedTagsOf docC8 "a" ∨
            t.name ∈ usedTagsOf (deleteFunction docC8 "a").1.paths)))))) :=
  ⟨by decide, claim_C8 docC8 "a" (by decide)⟩

/-- The direct reference names of the pool entry named `S` (empty when `S`
is not in the pool). -/
def schemaEntryDirectRefs (pool : List (String × Schema)) (S : String) : List String :=
  match lookupName pool S with
  | some b => schemaDirectRefs b
  | none => []

def docC2 : OpenAPIDocument :=
  { paths := [("/a", { emptyItem with get := some (opRet "a" [] (refTo "S")) }),
              ("/b", { emptyItem with get := some (opRet "b" [] (refTo "S")) })],
    components := some { schemas := some [("S", refTo "T"), ("T", refTo "U"), ("U", refTo "T")],
                         parameters := none, responses := none, requestBodies := none },
    tags := some [] }

/-- C2 counterexample: operations `a` and `b` both reference pool schema
`S`, whose body references the dead cycle `T ↔ U`.  Deleting `a` keeps `S`
(as claimed); then deleting `b` leaves `S` referenced from nowhere, yet `S`
survives: `deleteSchemas` refuses to delete `S` because `S` still
references `T`, which is itself marked for deletion but never deletable
inside its cycle. -/
theorem claim_C2_counterexample :
    (deleteFunction docC2 "a").2 = true ∧
    "S" ∈ schemaKeys (deleteFunction docC2 "a").1 ∧
    (deleteFunction (deleteFunction docC2 "a").1 "b").2 = true ∧
    "S" ∉ getAllUsedRefs (midDoc (deleteFunction docC2 "a").1 "b") ∧
    "S" ∈ schemaKeys (deleteFunction (deleteFunction docC2 "a").1 "b").1 := by
  refine ⟨by decide, by decide, by decide, by decide, by decide⟩

/-- C2 (amended): if pool schema `S` is referenced by an operation that
survives the first call, the first `deleteFunction` call keeps `S`; and the
second call removes `S` provided that after its removal phase `S` is
referenced from nowhere in the document AND every direct reference of `S`'s
own body is to a name that is still live (so the sweep is not blocked by a
dead dependency of `S`). -/
theorem claim_C2_amended (d : OpenAPIDocument) (aId bId S : String)
    (hS : S ∈ schemaKeys d)
    (hB : ∃ p item m op, (p, item) ∈ (deleteFunction d aId).1.paths ∧
        item.getM m = some op ∧ S ∈ collectRefs (schemasOf d) op [])
    (hCall2 : (deleteFunction (deleteFunction d aId).1 bId).2 = true)
    (hSb : ∀ n ∈ schemaEntryDirectRefs (schemasOf (deleteFunction d aId).1) S,
        n ∈ getAllUsedRefs (midDoc (deleteFunction d aId).1 bId))
    (hdead : S ∉ getAllUsedRefs (midDoc (deleteFunction d aId).1 bId)) :
    S ∈ schemaKeys (deleteFunction d aId).1 ∧
    S ∉ schemaKeys (deleteFunction (deleteFunction d aId).1 bId).1 := by
  have hused : S ∈ getAllUsedRefs (midDoc d aId) :=
    referencedBySurvivor_mem_used (Or.inl hB)
  obtain ⟨b, hb⟩ := mem_keys_lookupName hS
  have hb1 : lookupName (schemasOf (deleteFunction d aId).1) S = some b :=
    deleteFunction_keeps_used_schema hused hb
  have hpart1 : S ∈ schemaKeys (deleteFunction d aId).1 :=
    lookupName_mem_keys hb1
  refine ⟨hpart1, ?_⟩
  intro hmem
  have hdS : ∀ n ∈ schemaDirectRefs b,
      n ∈ getAllUsedRefs (midDoc (deleteFunction d aId).1 bId) := by
    intro n hn
    apply hSb
    simp only [schemaEntryDirectRefs, hb1]
    exact hn
  have hcl : PoolClosed (getAllUsedRefs (midDoc (deleteFunction d aId).1 bId))
      (schemasOf (deleteFunction d aId).1) := by
    have h := poolClosed_getAllUsedRefs (midDoc (deleteFunction d aId).1 bId)
    rwa [schemasOf_midDoc] at h
  have hnone : lookupName (deleteSchemas (schemasOf (deleteFunction d aId).1)
      (((schemasOf (deleteFunction d aId).1).map Prod.fst).filter
        (fun n => !(decide (n ∈ getAllUsedRefs (midDoc (deleteFunction d aId).1 bId)))))) S
      = none := by
    refine deleteSchemas_deletes hcl hdS _ _ (subPool_refl _) ?_ ?_ hb1
    · intro k hk
      have h := List.mem_filter.mp hk
      simpa using h.2
    · exact List.mem_filter.mpr ⟨hpart1, by simpa using hdead⟩
  simp only [schemaKeys] at hmem
  rw [deleteFunction_schemas _ _ hCall2] at hmem
  obtain ⟨v, hv⟩ := mem_keys_lookupName hmem
  rw [hnone] at hv
  exact Option.noConfusion hv

def docC2w : OpenAPIDocument :=
  { paths := [("/a", { emptyItem with get := some (opRet "a" [] (refTo "S")) }),
              ("/b", { emptyItem with get := some (opRet "b" [] (refTo "S")) })],
    components := some { schemas := some [("S", plainSchema)],
                         parameters := none, responses := none, requestBodies := none },
    tags := none }

theorem claim_C2_amended_witness :
    "S" ∈ schemaKeys (deleteFunction docC2w "a").1 ∧
    "S" ∉ schemaKeys (deleteFunction (deleteFunction docC2w "a").1 "b").1 := by
  refine claim_C2_amended docC2w "a" "b" "S" (by decide)
    ⟨"/b", { emptyItem with get := some (opRet "b" [] (refTo "S")) }, .get,
      opRet "b" [] (refTo "S"), ?_, rfl, by decide⟩
    (by decide) (by decide) (by decide)
  have h : (deleteFunction docC2w "a").1.paths =
      [("/b", { emptyItem with get := some (opRet "b" [] (refTo "S")) })] := rfl
  rw [h]
  exact List.mem_cons_self _ _
